import Mathlib

/-!
# plotextra: broken colour maps, broken scales and broken ticks

A shallow embedding of `broken_scale.go` and the properties of it that the
specification states.

* `Float64` is Go's `float64`: IEEE-754 binary64 with round-to-nearest-even,
  signed zeros, infinities and NaN. Every operator of the source that works on
  a `float64` is evaluated with it.
* `BrokenScale.Normalize` is written once, over any arithmetic; at `Float64`
  it is the code as Go runs it, at `ℚ` it is the same formula without rounding.
* The two sub-maps of a `BrokenColorMap` are objects behind references: the
  state is a heap of sub-map states and `ColorMap` is the method table of the
  `palette.ColorMap` interface.
-/

namespace Plotextra

/-! ## float64 -/

/-- A Go `float64`. The value of `fin neg m e` is `(-1)^neg * m * 2^e`. The
arithmetic below returns canonical data only (`Float64.arith_canonical`):
`m < 2^53`, `-1074 ≤ e ≤ 971`, `2^52 ≤ m` unless `e = -1074`, and zero is
`fin neg 0 0`. -/
inductive Float64 where
  | nan : Float64
  | inf (neg : Bool) : Float64
  | fin (neg : Bool) (m : Nat) (e : Int) : Float64
deriving DecidableEq, Repr

/-- The product `x * 2^k` for `k > 0`, and `x` itself for `k ≤ 0`. -/
def shl (x : Nat) (k : Int) : Nat := x * 2 ^ k.toNat

/-- The integer nearest to `num / den`, a tie going to the even neighbour. -/
def nearestEven (num den : Nat) : Nat :=
  let q := num / den
  let r := num % den
  if 2 * r < den then q else if den < 2 * r then q + 1 else q + q % 2

/-- Floor of the binary logarithm of `n` by repeated halving (0 for `n < 2`);
the first argument bounds the number of halvings. -/
def log2Aux : Nat → Nat → Nat
  | 0, _ => 0
  | fuel + 1, n => if n < 2 then 0 else log2Aux fuel (n / 2) + 1

/-- Floor of the binary logarithm of `n` (0 for `n < 2`). -/
def log2 (n : Nat) : Nat := log2Aux n n

/-- Floor of the binary logarithm of the positive rational `n / d`. -/
def floorLog2 (n d : Nat) : Int :=
  let k : Int := (log2 n : Int) - (log2 d : Int)
  if shl n (-k) < shl d k then k - 1 else k

/-- The binary64 datum nearest to the rational `(-1)^neg * n / d`: round to
nearest, ties to even, gradual underflow, overflow to infinity. -/
def Float64.round (neg : Bool) (n d : Nat) : Float64 :=
  if n = 0 then .fin neg 0 0
  else
    let q : Int := max (floorLog2 n d - 52) (-1074)
    let m := nearestEven (shl n (-q)) (shl d q)
    if m = 0 then .fin neg 0 0
    else if m = 2 ^ 53 then (if q + 1 > 971 then .inf neg else .fin neg (2 ^ 52) (q + 1))
    else if q > 971 then .inf neg
    else .fin neg m q

/-- Unary minus. -/
def Float64.neg : Float64 → Float64
  | .nan => .nan
  | .inf s => .inf (!s)
  | .fin s m e => .fin (!s) m e

/-- The operator `+` of Go on `float64`. -/
def Float64.add : Float64 → Float64 → Float64
  | .nan, _ => .nan
  | _, .nan => .nan
  | .inf a, .inf b => if a = b then .inf a else .nan
  | .inf a, .fin _ _ _ => .inf a
  | .fin _ _ _, .inf b => .inf b
  | .fin s1 m1 e1, .fin s2 m2 e2 =>
    let e := min e1 e2
    let a := shl m1 (e1 - e)
    let b := shl m2 (e2 - e)
    if s1 = s2 then Float64.round s1 (shl (a + b) e) (shl 1 (-e))
    else if a = b then .fin false 0 0
    else if b < a then Float64.round s1 (shl (a - b) e) (shl 1 (-e))
    else Float64.round s2 (shl (b - a) e) (shl 1 (-e))

/-- The operator `-` of Go on `float64`. -/
def Float64.sub (x y : Float64) : Float64 := Float64.add x (Float64.neg y)

/-- The operator `*` of Go on `float64`. -/
def Float64.mul : Float64 → Float64 → Float64
  | .nan, _ => .nan
  | _, .nan => .nan
  | .inf a, .inf b => .inf (xor a b)
  | .inf a, .fin s m _ => if m = 0 then .nan else .inf (xor a s)
  | .fin s m _, .inf b => if m = 0 then .nan else .inf (xor s b)
  | .fin s1 m1 e1, .fin s2 m2 e2 =>
    Float64.round (xor s1 s2) (shl (m1 * m2) (e1 + e2)) (shl 1 (-(e1 + e2)))

/-- The operator `/` of Go on `float64`. -/
def Float64.div : Float64 → Float64 → Float64
  | .nan, _ => .nan
  | _, .nan => .nan
  | .inf _, .inf _ => .nan
  | .inf a, .fin s _ _ => .inf (xor a s)
  | .fin s _ _, .inf b => .fin (xor s b) 0 0
  | .fin s1 m1 e1, .fin s2 m2 e2 =>
    if m2 = 0 then (if m1 = 0 then .nan else .inf (xor s1 s2))
    else Float64.round (xor s1 s2) (shl m1 (e1 - e2)) (shl m2 (e2 - e1))

/-- The integer `(-1)^neg * a`. -/
def signed (neg : Bool) (a : Nat) : Int := if neg then -(a : Int) else (a : Int)

/-- The operator `<` of Go on `float64`: false as soon as one side is NaN. -/
def Float64.lt : Float64 → Float64 → Bool
  | .nan, _ => false
  | _, .nan => false
  | .inf a, .inf b => a && !b
  | .inf a, .fin _ _ _ => a
  | .fin _ _ _, .inf b => !b
  | .fin s1 m1 e1, .fin s2 m2 e2 =>
    let e := min e1 e2
    decide (signed s1 (shl m1 (e1 - e)) < signed s2 (shl m2 (e2 - e)))

/-- The operator `<=` of Go on `float64`: false as soon as one side is NaN. -/
def Float64.le : Float64 → Float64 → Bool
  | .nan, _ => false
  | _, .nan => false
  | .inf a, .inf b => a || !b
  | .inf a, .fin _ _ _ => a
  | .fin _ _ _, .inf b => !b
  | .fin s1 m1 e1, .fin s2 m2 e2 =>
    let e := min e1 e2
    decide (signed s1 (shl m1 (e1 - e)) ≤ signed s2 (shl m2 (e2 - e)))

instance : Add Float64 := ⟨Float64.add⟩
instance : Sub Float64 := ⟨Float64.sub⟩
instance : Mul Float64 := ⟨Float64.mul⟩
instance : Div Float64 := ⟨Float64.div⟩
instance : Neg Float64 := ⟨Float64.neg⟩
instance : LT Float64 := ⟨fun a b => Float64.lt a b = true⟩
instance : LE Float64 := ⟨fun a b => Float64.le a b = true⟩
instance (a b : Float64) : Decidable (a < b) :=
  inferInstanceAs (Decidable (Float64.lt a b = true))
instance (a b : Float64) : Decidable (a ≤ b) :=
  inferInstanceAs (Decidable (Float64.le a b = true))

/-- An integer constant converted to `float64`. -/
instance (n : Nat) : OfNat Float64 n := ⟨Float64.round false n 1⟩

/-- A decimal constant converted to `float64` (rounded once, to nearest). -/
instance : OfScientific Float64 :=
  ⟨fun m s e => if s then Float64.round false m (10 ^ e) else Float64.round false (m * 10 ^ e) 1⟩

/-- The text `fmt.Sprintf("%.0f", x)` produces: the integer nearest to `x`
(ties to even) in decimal, with a minus sign when the sign bit is set. -/
def sprintf0f : Float64 → String
  | .nan => "NaN"
  | .inf s => if s then "-Inf" else "+Inf"
  | .fin s m e => (if s then "-" else "") ++ toString (nearestEven (shl m e) (shl 1 (-e)))

/-- Whether a datum is one of binary64: NaN, an infinity, a zero, a subnormal
(`0 < m < 2^52` at `e = -1074`) or a normal (`2^52 ≤ m < 2^53`,
`-1074 ≤ e ≤ 971`). The arithmetic returns such data only. -/
def Float64.canonical : Float64 → Bool
  | .nan => true
  | .inf _ => true
  | .fin _ m e =>
    (m == 0 && e == 0) || (decide (0 < m) && decide (m < 2 ^ 52) && e == -1074)
      || (decide (2 ^ 52 ≤ m) && decide (m < 2 ^ 53) && decide (-1074 ≤ e) && decide (e ≤ 971))

/-- The rational value of the finite datum `fin s m e`. -/
def finValue (s : Bool) (m : Nat) (e : Int) : ℚ := (if s then -(m : ℚ) else (m : ℚ)) * 2 ^ e

/-! ## The palette.ColorMap interface and its objects -/

/-- A `color.Color`, as its four channels. -/
structure Color where
  r : Nat
  g : Nat
  b : Nat
  a : Nat
deriving DecidableEq, Repr

/-- What a call that may panic leaves behind: the state of the receiver, and
the panic value when the call did not return normally. -/
structure Outcome (σ : Type) where
  state : σ
  failure : Option String

/-- The methods of `palette.ColorMap` that `BrokenColorMap` calls, for an
implementation whose objects have states in `σ`. `At` returns Go's pair
`(color.Color, error)`; `SetAlpha` is the one method documented to panic. -/
structure ColorMap (σ : Type) where
  At : σ → Float64 → Except String Color
  Max : σ → Float64
  SetMax : σ → Float64 → σ
  Min : σ → Float64
  SetMin : σ → Float64 → σ
  Alpha : σ → Float64
  SetAlpha : σ → Float64 → Outcome σ

/-- The sub-map objects, by reference. -/
abbrev Heap (σ : Type) := Nat → σ

/-! ## BrokenColorMap (broken_scale.go, lines 11-69) -/

/-- The struct `BrokenColorMap`: two interface values, each a reference to a
sub-map object. -/
structure BrokenColorMap where
  Base : Nat
  OverFlow : Nat
deriving DecidableEq, Repr

variable {σ : Type}

/-- `SetHighCut`: `c.Base.SetMax(v)` and then `c.OverFlow.SetMin(v)`. -/
def BrokenColorMap.SetHighCut (c : BrokenColorMap) (M : ColorMap σ) (v : Float64)
    (h : Heap σ) : Heap σ :=
  let h1 := Function.update h c.Base (M.SetMax (h c.Base) v)
  Function.update h1 c.OverFlow (M.SetMin (h1 c.OverFlow) v)

/-- `At`: the overflow map answers when `v > c.Base.Max()`, the base map
otherwise. -/
def BrokenColorMap.At (c : BrokenColorMap) (M : ColorMap σ) (v : Float64)
    (h : Heap σ) : Except String Color :=
  if v > M.Max (h c.Base) then M.At (h c.OverFlow) v
  else M.At (h c.Base) v

/-- `Max`: `c.OverFlow.Max()`. -/
def BrokenColorMap.Max (c : BrokenColorMap) (M : ColorMap σ) (h : Heap σ) : Float64 :=
  M.Max (h c.OverFlow)

/-- `SetMax`: `c.OverFlow.SetMax(v)`. -/
def BrokenColorMap.SetMax (c : BrokenColorMap) (M : ColorMap σ) (v : Float64)
    (h : Heap σ) : Heap σ :=
  Function.update h c.OverFlow (M.SetMax (h c.OverFlow) v)

/-- `Min`: `c.Base.Min()`. -/
def BrokenColorMap.Min (c : BrokenColorMap) (M : ColorMap σ) (h : Heap σ) : Float64 :=
  M.Min (h c.Base)

/-- `SetMin`: `c.Base.SetMin(v)`. -/
def BrokenColorMap.SetMin (c : BrokenColorMap) (M : ColorMap σ) (v : Float64)
    (h : Heap σ) : Heap σ :=
  Function.update h c.Base (M.SetMin (h c.Base) v)

/-- `Alpha`: `(c.Base.Alpha() + c.OverFlow.Alpha()) / 2`. -/
def BrokenColorMap.Alpha (c : BrokenColorMap) (M : ColorMap σ) (h : Heap σ) : Float64 :=
  (M.Alpha (h c.Base) + M.Alpha (h c.OverFlow)) / 2

/-- `SetAlpha`: `c.Base.SetAlpha(v)` and then `c.OverFlow.SetAlpha(v)`. A panic
of the first call ends the method before the second call is made. -/
def BrokenColorMap.SetAlpha (c : BrokenColorMap) (M : ColorMap σ) (v : Float64)
    (h : Heap σ) : Outcome (Heap σ) :=
  let r1 := M.SetAlpha (h c.Base) v
  let h1 := Function.update h c.Base r1.state
  match r1.failure with
  | some msg => ⟨h1, some msg⟩
  | none =>
    let r2 := M.SetAlpha (h1 c.OverFlow) v
    ⟨Function.update h1 c.OverFlow r2.state, r2.failure⟩

/-- `Palette`: `panic("not implemented")`; the error of the result is the
panic value. -/
def BrokenColorMap.Palette (_c : BrokenColorMap) (_M : ColorMap σ) (_colors : Int)
    (_h : Heap σ) : Except String (List Color) :=
  .error "not implemented"

/-- One call of a state-changing or reading method of `BrokenColorMap`. -/
inductive Op where
  | SetHighCut (v : Float64) : Op
  | SetMax (v : Float64) : Op
  | SetMin (v : Float64) : Op
  | SetAlpha (v : Float64) : Op
  | At (v : Float64) : Op
deriving DecidableEq, Repr

/-- The heap after one call (the state a panicking `SetAlpha` leaves is a
state too: a caller may recover). -/
def BrokenColorMap.step (c : BrokenColorMap) (M : ColorMap σ) (h : Heap σ) : Op → Heap σ
  | .SetHighCut v => c.SetHighCut M v h
  | .SetMax v => c.SetMax M v h
  | .SetMin v => c.SetMin M v h
  | .SetAlpha v => (c.SetAlpha M v h).state
  | .At _ => h

/-- The heap after a sequence of calls. -/
def BrokenColorMap.run (c : BrokenColorMap) (M : ColorMap σ) (ops : List Op)
    (h : Heap σ) : Heap σ :=
  ops.foldl (c.step M) h

/-! ## BrokenScale and BrokenTicks (broken_scale.go, lines 71-97) -/

/-- The struct `BrokenScale`, over the numeric type `F`. -/
structure BrokenScale (F : Type) where
  HighCut : F
  HighCutFraction : F

/-- `Normalize`, operator by operator as in the source. -/
def BrokenScale.Normalize {F : Type} [Add F] [Sub F] [Mul F] [Div F] [OfNat F 1] [LT F]
    [∀ a b : F, Decidable (a < b)] (b : BrokenScale F) (min max x : F) : F :=
  if x > b.HighCut then
    b.HighCutFraction + (1 - b.HighCutFraction) * (x - b.HighCut) / (max - b.HighCut)
  else
    b.HighCutFraction * (x - min) / (b.HighCut - min)

/-- The struct `plot.Tick`. -/
structure Tick where
  Value : Float64
  Label : String
deriving DecidableEq, Repr

/-- The struct `BrokenTicks`. -/
structure BrokenTicks where
  HighCut : Float64

/-- `Ticks`. The tick generator `plot.DefaultTicks` of the plotting library is
the parameter `defaultTicks`; like every call it may panic instead of
returning (the error of its result), and `Ticks` has no `recover`. -/
def BrokenTicks.Ticks (b : BrokenTicks)
    (defaultTicks : Float64 → Float64 → Except String (List Tick))
    (min max : Float64) : Except String (List Tick) :=
  match defaultTicks min b.HighCut with
  | .error e => .error e
  | .ok ticks => .ok (ticks ++ [Tick.mk max (sprintf0f max)])

/-! ## A sample sub-map -/

/-- State of the sample sub-map: its bounds and opacity. -/
structure RangeMap where
  min : Float64
  max : Float64
  alpha : Float64
deriving DecidableEq, Repr

/-- A sample implementation of the interface, in the manner of the colour
maps of the plotting library: the setters store, `At` answers inside
`[min, max]` only, `SetAlpha` checks before it stores. -/
def rangeMap : ColorMap RangeMap where
  At s v :=
    if v < s.min then .error "palette: value underflow"
    else if v > s.max then .error "palette: value overflow"
    else .ok ⟨0, 0, 0, 65535⟩
  Max s := s.max
  SetMax s v := { s with max := v }
  Min s := s.min
  SetMin s v := { s with min := v }
  Alpha s := s.alpha
  SetAlpha s v :=
    if v < 0 ∨ v > 1 then ⟨s, some "invalid alpha"⟩
    else ⟨{ s with alpha := v }, none⟩

/-- A sample tick generator with the range check of `plot.DefaultTicks`, which
panics with "illegal range" when `max <= min`; for any other range it puts one
tick at each end. -/
def endTicks (lo hi : Float64) : Except String (List Tick) :=
  if hi ≤ lo then .error "illegal range"
  else .ok [Tick.mk lo (sprintf0f lo), Tick.mk hi (sprintf0f hi)]

/-- Two sample sub-map objects: object 0 covers `[0, 50]`, every other
object covers `[50, 100]`. -/
def sampleHeap : Heap RangeMap := fun i =>
  if i = 0 then ⟨0, 50, 1⟩ else ⟨50, 100, 1⟩

/-- Two sample sub-map objects whose ranges are not lined up: object 0
covers `[0, 50]`, every other object covers `[20, 30]`. -/
def unsyncedHeap : Heap RangeMap := fun i =>
  if i = 0 then ⟨0, 50, 1⟩ else ⟨20, 30, 1⟩

/-! ## Facts about the float64 arithmetic -/

/-- The halving loop of `log2Aux` ends before its bound does. -/
theorem log2Aux_spec : ∀ (fuel n : Nat), 0 < n → n ≤ fuel →
    2 ^ log2Aux fuel n ≤ n ∧ n < 2 ^ (log2Aux fuel n + 1) := by
  intro fuel
  induction fuel with
  | zero => intro n h0 h1; omega
  | succ fuel ih =>
    intro n h0 h1
    by_cases h2 : n < 2
    · have : n = 1 := by omega
      subst this
      simp [log2Aux]
    · have hrec := ih (n / 2) (by omega) (by omega)
      simp only [log2Aux, if_neg h2]
      have e1 : 2 ^ (log2Aux fuel (n / 2) + 1) = 2 * 2 ^ log2Aux fuel (n / 2) := by
        rw [pow_succ]; ring
      have e2 : 2 ^ (log2Aux fuel (n / 2) + 1 + 1)
          = 2 * 2 ^ (log2Aux fuel (n / 2) + 1) := by
        rw [pow_succ]; ring
      rw [e2]
      rw [e1] at hrec ⊢
      omega

/-- For positive `n`, `log2 n` is the exponent of the leading bit. -/
theorem log2_spec (n : Nat) (h : 0 < n) : 2 ^ log2 n ≤ n ∧ n < 2 ^ (log2 n + 1) :=
  log2Aux_spec n n h (le_refl n)

/-- The multiple of `den` chosen by `nearestEven` is within half of `den` of
`num`, and on a tie the chosen quotient is even. -/
theorem nearestEven_spec (num den : Nat) (hden : 0 < den) :
    2 * (nearestEven num den * den) ≤ 2 * num + den ∧
    2 * num ≤ 2 * (nearestEven num den * den) + den ∧
    (2 * (num % den) = den → nearestEven num den % 2 = 0) := by
  have hdm := Nat.div_add_mod num den
  have hr := Nat.mod_lt num hden
  have e1 : (num / den + 1) * den = den * (num / den) + den := by ring
  have e0 : (num / den) * den = den * (num / den) := by ring
  simp only [nearestEven]
  split_ifs with h1 h2
  · rw [e0]; refine ⟨by omega, by omega, by omega⟩
  · rw [e1]; refine ⟨by omega, by omega, by omega⟩
  · have h3 : 2 * (num % den) = den := by omega
    rcases Nat.mod_two_eq_zero_or_one (num / den) with h4 | h4
    · rw [h4, Nat.add_zero, e0]; refine ⟨by omega, by omega, fun _ => h4⟩
    · rw [h4, e1]; refine ⟨by omega, by omega, fun _ => by omega⟩

set_option maxRecDepth 100000 in
set_option exponentiation.threshold 5000 in
/-- Known float64 results: `0.1 + 0.2` is `0.30000000000000004` and not `0.3`;
`1 / 3` is `6004799503160661 * 2^-54`; halves round to even; the largest
finite value overflows to `+Inf` when doubled; the smallest subnormal halves
to zero; `0 / 0` is NaN and `1 / -0` is `-Inf`; NaN compares false. -/
theorem Float64.known_values :
    (0.1 : Float64) + 0.2 = Float64.fin false 5404319552844596 (-54) ∧
    (0.3 : Float64) = Float64.fin false 5404319552844595 (-54) ∧
    (1 : Float64) / 3 = Float64.fin false 6004799503160661 (-54) ∧
    (9007199254740992 : Float64) + 1 = 9007199254740992 ∧
    (9007199254740994 : Float64) + 1 = 9007199254740996 ∧
    Float64.fin false (2 ^ 53 - 1) 971 * 2 = Float64.inf false ∧
    Float64.fin false 1 (-1074) / 2 = 0 ∧
    (0 : Float64) / 0 = Float64.nan ∧
    (1 : Float64) / (-0) = Float64.inf true ∧
    ¬ (Float64.nan < 1) ∧ ¬ (Float64.nan ≤ Float64.nan) ∧ ¬ (1 > Float64.nan) ∧
    (-0 : Float64) ≤ 0 ∧ (0 : Float64) ≤ -0 := by
  decide

/-! ## Facts about float64 comparison -/

/-- Where `a <= b` holds, `b < a` does not (also with NaN and infinities). -/
theorem Float64.lt_eq_false_of_le (a b : Float64) (h : Float64.le a b = true) :
    Float64.lt b a = false := by
  cases a <;> cases b <;> simp_all [Float64.le, Float64.lt]
  · rename_i x y
    cases x <;> cases y <;> simp_all
  · rename_i s1 m1 e1 s2 m2 e2
    rw [min_comm e2 e1]
    exact h

/-- No `float64` is less than itself. -/
theorem Float64.lt_self_eq_false (a : Float64) : Float64.lt a a = false := by
  cases a <;> simp [Float64.lt]

theorem Float64.not_gt_of_le {a b : Float64} (h : a ≤ b) : ¬ a > b := by
  have h1 : Float64.lt b a = false := Float64.lt_eq_false_of_le a b h
  intro h2
  have h3 : Float64.lt b a = true := h2
  rw [h1] at h3
  exact Bool.false_ne_true h3

theorem Float64.not_gt_self (a : Float64) : ¬ a > a := by
  intro h2
  have h3 : Float64.lt a a = true := h2
  rw [Float64.lt_self_eq_false] at h3
  exact Bool.false_ne_true h3

/-- Where `a < b` holds, `a <= b` holds. -/
theorem Float64.le_of_lt {a b : Float64} (h : a < b) : a ≤ b := by
  have h1 : Float64.lt a b = true := h
  show Float64.le a b = true
  cases a <;> cases b <;> simp_all [Float64.le, Float64.lt]
  exact Int.le_of_lt h1

/-- Where `a < b` holds, `b < a` does not. -/
theorem Float64.lt_asymm {a b : Float64} (h : a < b) : ¬ b < a :=
  Float64.not_gt_of_le (Float64.le_of_lt h)

/-! ## BrokenColorMap.At and SetHighCut -/

/-- C1. `At(v)` is routed by the strict comparison `v > Base.Max()`: above the
base maximum the result is the overflow map's own result for `v`, colour or
error alike, and for `v <= Base.Max()` it is the base map's own result. -/
theorem BrokenColorMap.At_routes_by_base_max (c : BrokenColorMap) (M : ColorMap σ)
    (v : Float64) (h : Heap σ) :
    (v > M.Max (h c.Base) → c.At M v h = M.At (h c.OverFlow) v) ∧
    (v ≤ M.Max (h c.Base) → c.At M v h = M.At (h c.Base) v) := by
  constructor
  · intro hv
    simp only [BrokenColorMap.At, if_pos hv]
  · intro hv
    simp only [BrokenColorMap.At, if_neg (Float64.not_gt_of_le hv)]

set_option maxRecDepth 100000 in
/-- C1 at concrete inputs: 75 lies above the base maximum 50 and is answered by
the overflow object; 150 is above it too and the overflow error is passed on. -/
theorem BrokenColorMap.At_routes_by_base_max_witness :
    (BrokenColorMap.mk 0 1).At rangeMap 75 sampleHeap = rangeMap.At (sampleHeap 1) 75 ∧
    (BrokenColorMap.mk 0 1).At rangeMap 150 sampleHeap = .error "palette: value overflow" ∧
    (BrokenColorMap.mk 0 1).At rangeMap 50 sampleHeap = rangeMap.At (sampleHeap 0) 50 :=
  ⟨(BrokenColorMap.At_routes_by_base_max ⟨0, 1⟩ rangeMap 75 sampleHeap).1 (by decide),
   ((BrokenColorMap.At_routes_by_base_max ⟨0, 1⟩ rangeMap 150 sampleHeap).1 (by decide)).trans
     (by rfl),
   (BrokenColorMap.At_routes_by_base_max ⟨0, 1⟩ rangeMap 50 sampleHeap).2 (by decide)⟩

/-- C2. After `SetHighCut(v)` on two distinct sub-map objects whose `SetMax`
and `SetMin` store the value they are given, `Base.Max()` is `v` and
`OverFlow.Min()` is `v`. -/
theorem BrokenColorMap.SetHighCut_sets_cut (c : BrokenColorMap) (M : ColorMap σ)
    (v : Float64) (h : Heap σ) (hdistinct : c.Base ≠ c.OverFlow)
    (hmax : ∀ s x, M.Max (M.SetMax s x) = x)
    (hmin : ∀ s x, M.Min (M.SetMin s x) = x) :
    M.Max (c.SetHighCut M v h c.Base) = v ∧ M.Min (c.SetHighCut M v h c.OverFlow) = v := by
  constructor
  · simp only [BrokenColorMap.SetHighCut]
    rw [Function.update_noteq hdistinct, Function.update_same]
    exact hmax _ _
  · simp only [BrokenColorMap.SetHighCut]
    rw [Function.update_same]
    exact hmin _ _

/-- C2 at a concrete input: the cut 60 on the sample objects 0 and 1. -/
theorem BrokenColorMap.SetHighCut_sets_cut_witness :
    rangeMap.Max ((BrokenColorMap.mk 0 1).SetHighCut rangeMap 60 sampleHeap 0) = 60 ∧
    rangeMap.Min ((BrokenColorMap.mk 0 1).SetHighCut rangeMap 60 sampleHeap 1) = 60 :=
  BrokenColorMap.SetHighCut_sets_cut ⟨0, 1⟩ rangeMap 60 sampleHeap (by decide)
    (fun _ _ => rfl) (fun _ _ => rfl)

/-! ## BrokenScale.Normalize -/

/-- The upper branch is taken exactly for `x > HighCut`. -/
theorem BrokenScale.Normalize_upper {F : Type} [Add F] [Sub F] [Mul F] [Div F] [OfNat F 1]
    [LT F] [∀ a b : F, Decidable (a < b)] (b : BrokenScale F) (min max x : F)
    (hx : x > b.HighCut) :
    b.Normalize min max x =
      b.HighCutFraction + (1 - b.HighCutFraction) * (x - b.HighCut) / (max - b.HighCut) := by
  simp only [BrokenScale.Normalize, if_pos hx]

/-- The lower branch is taken whenever `x > HighCut` is false. -/
theorem BrokenScale.Normalize_lower {F : Type} [Add F] [Sub F] [Mul F] [Div F] [OfNat F 1]
    [LT F] [∀ a b : F, Decidable (a < b)] (b : BrokenScale F) (min max x : F)
    (hx : ¬ x > b.HighCut) :
    b.Normalize min max x = b.HighCutFraction * (x - min) / (b.HighCut - min) := by
  simp only [BrokenScale.Normalize, if_neg hx]

set_option maxRecDepth 100000 in
/-- C3 as stated fails on float64. With `HighCut = 3`, `HighCutFraction = 0.1`
and `min = 0` (so `HighCut != min`), `Normalize(0, 10, 3)` is
`0.1 * 3 / 3 = 0.10000000000000002`, one unit in the last place above
`HighCutFraction = 0.1`: the product `0.1 * 3` rounds up and the quotient does
not round back. -/
theorem BrokenScale.Normalize_at_cut_counterexample :
    (3 : Float64) ≠ 0 ∧
    (0.1 : Float64) = Float64.fin false 7205759403792794 (-56) ∧
    (BrokenScale.mk (3 : Float64) 0.1).Normalize 0 10 3
      = Float64.fin false 7205759403792795 (-56) ∧
    (BrokenScale.mk (3 : Float64) 0.1).Normalize 0 10 3 ≠ 0.1 := by
  decide

set_option maxRecDepth 100000 in
/-- C3, amended. `x == HighCut` takes the lower (else) branch for every
float64 input, so `Normalize(min, max, HighCut)` is the float64 value of
`HighCutFraction * (HighCut - min) / (HighCut - min)`; without rounding (in
exact arithmetic) that is `HighCutFraction` whenever `HighCut != min`; and for
`HighCut = 50`, `HighCutFraction = 0.8` the float64 result of
`Normalize(0, 100, 50)` is exactly `0.8`. -/
theorem BrokenScale.Normalize_at_cut :
    (∀ (b : BrokenScale Float64) (min max : Float64),
      b.Normalize min max b.HighCut
        = b.HighCutFraction * (b.HighCut - min) / (b.HighCut - min)) ∧
    (∀ (b : BrokenScale ℚ) (min max : ℚ), b.HighCut ≠ min →
      b.Normalize min max b.HighCut = b.HighCutFraction) ∧
    (BrokenScale.mk (50 : Float64) 0.8).Normalize 0 100 50 = 0.8 := by
  refine ⟨?_, ?_, by decide⟩
  · intro b min max
    exact BrokenScale.Normalize_lower b min max b.HighCut (Float64.not_gt_self _)
  · intro b min max hne
    rw [BrokenScale.Normalize_lower b min max b.HighCut (lt_irrefl _)]
    have hd : b.HighCut - min ≠ 0 := sub_ne_zero.mpr hne
    rw [mul_div_assoc, div_self hd, mul_one]

/-- C3, amended, at a concrete exact input. -/
theorem BrokenScale.Normalize_at_cut_witness :
    (BrokenScale.mk (50 : ℚ) (4 / 5)).Normalize 0 100 50 = 4 / 5 :=
  BrokenScale.Normalize_at_cut.2.1 ⟨50, 4 / 5⟩ 0 100 (by norm_num)

set_option maxRecDepth 100000 in
/-- C4. `Normalize` is the two-piece linear formula with nothing added: for
every float64 `min`, `max`, `x` (inside `[min, max]` or not) the result is
`HighCutFraction + (1 - HighCutFraction) * (x - HighCut) / (max - HighCut)`
when `x > HighCut` and `HighCutFraction * (x - min) / (HighCut - min)` when
`x <= HighCut`, each operator being the float64 one. With `HighCut = 50` and
`HighCutFraction = 0.8`: `Normalize(0, 100, 75) == 0.9`,
`Normalize(0, 100, 25) == 0.4`, and outside the range nothing is clamped:
`Normalize(0, 100, 150) == 1.2`, `Normalize(0, 100, -25) == -0.4`. -/
theorem BrokenScale.Normalize_two_piece :
    (∀ (b : BrokenScale Float64) (min max x : Float64),
      (x > b.HighCut → b.Normalize min max x =
        b.HighCutFraction + (1 - b.HighCutFraction) * (x - b.HighCut) / (max - b.HighCut)) ∧
      (x ≤ b.HighCut → b.Normalize min max x =
        b.HighCutFraction * (x - min) / (b.HighCut - min))) ∧
    (BrokenScale.mk (50 : Float64) 0.8).Normalize 0 100 75 = 0.9 ∧
    (BrokenScale.mk (50 : Float64) 0.8).Normalize 0 100 25 = 0.4 ∧
    (BrokenScale.mk (50 : Float64) 0.8).Normalize 0 100 150 = 1.2 ∧
    (BrokenScale.mk (50 : Float64) 0.8).Normalize 0 100 (-25) = -0.4 := by
  refine ⟨?_, by decide, by decide, by decide, by decide⟩
  intro b min max x
  exact ⟨BrokenScale.Normalize_upper b min max x,
    fun hx => BrokenScale.Normalize_lower b min max x (Float64.not_gt_of_le hx)⟩

set_option maxRecDepth 100000 in
/-- C4 at a concrete input on each branch: 75 is above the cut 50, 25 is not. -/
theorem BrokenScale.Normalize_two_piece_witness :
    (BrokenScale.mk (50 : Float64) 0.8).Normalize 0 100 75
      = (0.8 : Float64) + (1 - 0.8) * (75 - 50) / (100 - 50) ∧
    (BrokenScale.mk (50 : Float64) 0.8).Normalize 0 100 25
      = (0.8 : Float64) * (25 - 0) / (50 - 0) :=
  ⟨(BrokenScale.Normalize_two_piece.1 ⟨50, 0.8⟩ 0 100 75).1 (by decide),
   (BrokenScale.Normalize_two_piece.1 ⟨50, 0.8⟩ 0 100 25).2 (by decide)⟩

set_option maxRecDepth 100000 in
/-- C5 as stated fails on float64. With `min = 0 < HighCut = 1 < max = 4` and
`HighCutFraction = 0.2`, the point `x = max = 4` of `[HighCut, max]` gives
`0.2 + (1 - 0.2) * 3 / 3 = 1.0000000000000002`, which is above 1 and is not
the promised `Normalize(min, max, max) == 1`. -/
theorem BrokenScale.Normalize_range_counterexample :
    (0 : Float64) < 1 ∧ (1 : Float64) < 4 ∧ (0 : Float64) ≤ 0.2 ∧ (0.2 : Float64) ≤ 1 ∧
    (1 : Float64) ≤ 4 ∧ (4 : Float64) ≤ 4 ∧
    (BrokenScale.mk (1 : Float64) 0.2).Normalize 0 4 4
      = Float64.fin false 4503599627370497 (-52) ∧
    (1 : Float64) < (BrokenScale.mk (1 : Float64) 0.2).Normalize 0 4 4 ∧
    (BrokenScale.mk (1 : Float64) 0.2).Normalize 0 4 4 ≠ 1 := by
  decide

/-- In exact arithmetic the lower piece lies in `[0, HighCutFraction]`. -/
theorem BrokenScale.Normalize_lower_range (b : BrokenScale ℚ) (min max x : ℚ)
    (hlo : min < b.HighCut) (hf0 : 0 ≤ b.HighCutFraction) (h1 : min ≤ x)
    (h2 : x ≤ b.HighCut) :
    0 ≤ b.Normalize min max x ∧ b.Normalize min max x ≤ b.HighCutFraction := by
  rw [BrokenScale.Normalize_lower b min max x (not_lt.mpr h2)]
  have hd : 0 < b.HighCut - min := sub_pos.mpr hlo
  constructor
  · exact div_nonneg (mul_nonneg hf0 (sub_nonneg.mpr h1)) hd.le
  · rw [div_le_iff₀ hd]
    exact mul_le_mul_of_nonneg_left (by linarith) hf0

/-- In exact arithmetic the upper piece lies in `[HighCutFraction, 1]`. -/
theorem BrokenScale.Normalize_upper_range (b : BrokenScale ℚ) (min max x : ℚ)
    (hlo : min < b.HighCut) (hhi : b.HighCut < max)
    (hf1 : b.HighCutFraction ≤ 1) (h1 : b.HighCut ≤ x) (h2 : x ≤ max) :
    b.HighCutFraction ≤ b.Normalize min max x ∧ b.Normalize min max x ≤ 1 := by
  rcases eq_or_lt_of_le h1 with heq | hlt
  · rw [BrokenScale.Normalize_lower b min max x (not_lt.mpr heq.ge)]
    have hd : b.HighCut - min ≠ 0 := (sub_pos.mpr hlo).ne.symm
    rw [← heq, mul_div_assoc, div_self hd, mul_one]
    exact ⟨le_refl _, hf1⟩
  · rw [BrokenScale.Normalize_upper b min max x hlt]
    have hd : 0 < max - b.HighCut := sub_pos.mpr hhi
    have hg : 0 ≤ 1 - b.HighCutFraction := sub_nonneg.mpr hf1
    have hq0 : 0 ≤ (1 - b.HighCutFraction) * (x - b.HighCut) / (max - b.HighCut) :=
      div_nonneg (mul_nonneg hg (sub_nonneg.mpr h1)) hd.le
    have hq1 : (1 - b.HighCutFraction) * (x - b.HighCut) / (max - b.HighCut)
        ≤ 1 - b.HighCutFraction := by
      rw [div_le_iff₀ hd]
      exact mul_le_mul_of_nonneg_left (by linarith) hg
    constructor <;> linarith

/-- C5, amended. In exact arithmetic (the formula of `Normalize` without
float64 rounding), for every `min < HighCut < max` and
`0 <= HighCutFraction <= 1`: every `x` in `[min, HighCut]` gives a result in
`[0, HighCutFraction]`, `Normalize(min, max, min) == 0`, every `x` in
`[HighCut, max]` gives a result in `[HighCutFraction, 1]`,
`Normalize(min, max, max) == 1`, and every `x` in `[min, max]` gives a result
in `[0, 1]`. -/
theorem BrokenScale.Normalize_range_exact (b : BrokenScale ℚ) (min max : ℚ)
    (hlo : min < b.HighCut) (hhi : b.HighCut < max)
    (hf0 : 0 ≤ b.HighCutFraction) (hf1 : b.HighCutFraction ≤ 1) :
    (∀ x, min ≤ x → x ≤ b.HighCut →
      0 ≤ b.Normalize min max x ∧ b.Normalize min max x ≤ b.HighCutFraction) ∧
    b.Normalize min max min = 0 ∧
    (∀ x, b.HighCut ≤ x → x ≤ max →
      b.HighCutFraction ≤ b.Normalize min max x ∧ b.Normalize min max x ≤ 1) ∧
    b.Normalize min max max = 1 ∧
    (∀ x, min ≤ x → x ≤ max → 0 ≤ b.Normalize min max x ∧ b.Normalize min max x ≤ 1) := by
  refine ⟨fun x => BrokenScale.Normalize_lower_range b min max x hlo hf0, ?_,
    fun x => BrokenScale.Normalize_upper_range b min max x hlo hhi hf1, ?_, ?_⟩
  · rw [BrokenScale.Normalize_lower b min max min (not_lt.mpr hlo.le)]
    simp
  · rw [BrokenScale.Normalize_upper b min max max hhi]
    have hd : max - b.HighCut ≠ 0 := (sub_pos.mpr hhi).ne.symm
    rw [mul_div_assoc, div_self hd, mul_one]
    ring
  · intro x h1 h2
    rcases le_total x b.HighCut with h | h
    · have := BrokenScale.Normalize_lower_range b min max x hlo hf0 h1 h
      exact ⟨this.1, this.2.trans hf1⟩
    · have := BrokenScale.Normalize_upper_range b min max x hlo hhi hf1 h h2
      exact ⟨hf0.trans this.1, this.2⟩

/-- C5, amended, at the input of the counterexample: exactly, the range
`0 < 1 < 4` with fraction `1/5` maps `max` to 1 and `[0, 4]` into `[0, 1]`. -/
theorem BrokenScale.Normalize_range_exact_witness :
    (BrokenScale.mk (1 : ℚ) (1 / 5)).Normalize 0 4 4 = 1 ∧
    (BrokenScale.mk (1 : ℚ) (1 / 5)).Normalize 0 4 0 = 0 ∧
    0 ≤ (BrokenScale.mk (1 : ℚ) (1 / 5)).Normalize 0 4 3 ∧
    (BrokenScale.mk (1 : ℚ) (1 / 5)).Normalize 0 4 3 ≤ 1 :=
  have h := BrokenScale.Normalize_range_exact ⟨1, 1 / 5⟩ 0 4 (by norm_num) (by norm_num)
    (by norm_num) (by norm_num)
  ⟨h.2.2.2.1, h.2.1, h.2.2.2.2 3 (by norm_num) (by norm_num)⟩

/-! ## BrokenTicks.Ticks -/

set_option maxRecDepth 100000 in
/-- C6 as stated fails: `Ticks(min, max)` does not return for every `min`, `max`
and `HighCut`. The default generator refuses a range with `HighCut <= min` by
a panic, `Ticks` has no `recover`, and so `BrokenTicks{HighCut: 0}.Ticks(0, 100)`
panics with "illegal range": there is no result, and no tick at `max`. -/
theorem BrokenTicks.Ticks_illegal_range_counterexample :
    (0 : Float64) ≤ 0 ∧
    endTicks 0 0 = .error "illegal range" ∧
    (BrokenTicks.mk 0).Ticks endTicks 0 100 = .error "illegal range" ∧
    (∀ out, (BrokenTicks.mk 0).Ticks endTicks 0 100 ≠ .ok out) := by
  have h : (BrokenTicks.mk 0).Ticks endTicks 0 100 = .error "illegal range" := by rfl
  refine ⟨by decide, by rfl, h, ?_⟩
  intro out hout
  rw [h] at hout
  exact Except.noConfusion hout

set_option maxRecDepth 100000 in
/-- C6, amended. Whenever the default generator returns for `(min, HighCut)`,
`Ticks(min, max)` returns those ticks, unchanged and in their order, followed
by one tick whose `Value` is `max` and whose `Label` is `max` printed with
`%.0f`: the length is the default count plus one, the last tick is the one at
`max`, and every default tick stays at its index. When the generator panics
instead, `Ticks` panics with the same value. Provided the generator returns
for `(0, 50)`, `BrokenTicks{HighCut: 50}.Ticks(0, 100)` ends with
`{Value: 100, Label: "100"}`; the label is rounded to the nearest integer
(99.5 prints as "100"); and a default tick that already sits at `max` is kept,
so the tick at `max` is then there twice. -/
theorem BrokenTicks.Ticks_appends_max_tick :
    (∀ (b : BrokenTicks) (defaultTicks : Float64 → Float64 → Except String (List Tick))
      (min max : Float64) (ts : List Tick), defaultTicks min b.HighCut = .ok ts →
      ∃ out, b.Ticks defaultTicks min max = .ok out ∧
        out = ts ++ [Tick.mk max (sprintf0f max)] ∧
        out.length = ts.length + 1 ∧
        out.getLast? = some (Tick.mk max (sprintf0f max)) ∧
        (∀ i, i < ts.length → out[i]? = ts[i]?)) ∧
    (∀ (b : BrokenTicks) (defaultTicks : Float64 → Float64 → Except String (List Tick))
      (min max : Float64) (e : String), defaultTicks min b.HighCut = .error e →
      b.Ticks defaultTicks min max = .error e) ∧
    (∀ (defaultTicks : Float64 → Float64 → Except String (List Tick)) (ts : List Tick),
      defaultTicks 0 50 = .ok ts →
      ∃ out, (BrokenTicks.mk 50).Ticks defaultTicks 0 100 = .ok out ∧
        out.getLast? = some (Tick.mk 100 "100")) ∧
    (∀ (defaultTicks : Float64 → Float64 → Except String (List Tick)) (ts : List Tick),
      defaultTicks 0 50 = .ok ts →
      ∃ out, (BrokenTicks.mk 50).Ticks defaultTicks 0 99.5 = .ok out ∧
        out.getLast? = some (Tick.mk 99.5 "100")) ∧
    (BrokenTicks.mk 100).Ticks endTicks 0 100
      = .ok [Tick.mk 0 "0", Tick.mk 100 "100", Tick.mk 100 "100"] := by
  refine ⟨?_, ?_, ?_, ?_, by rfl⟩
  · intro b defaultTicks min max ts hts
    refine ⟨ts ++ [Tick.mk max (sprintf0f max)], ?_, rfl, ?_, ?_, ?_⟩
    · simp only [BrokenTicks.Ticks, hts]
    · simp
    · simp
    · intro i hi
      exact List.getElem?_append_left hi
  · intro b defaultTicks min max e he
    simp only [BrokenTicks.Ticks, he]
  · intro defaultTicks ts hts
    have h : sprintf0f 100 = "100" := by decide
    refine ⟨ts ++ [Tick.mk 100 "100"], ?_, by simp⟩
    simp only [BrokenTicks.Ticks, hts, h]
  · intro defaultTicks ts hts
    have h : sprintf0f 99.5 = "100" := by decide
    refine ⟨ts ++ [Tick.mk 99.5 "100"], ?_, by simp⟩
    simp only [BrokenTicks.Ticks, hts, h]

set_option maxRecDepth 100000 in
/-- C6, amended, with the sample generator, which returns for `(0, 50)`:
`BrokenTicks{HighCut: 50}.Ticks(0, 100)` is the two ticks of `(0, 50)` and
then the tick at 100. -/
theorem BrokenTicks.Ticks_appends_max_tick_witness :
    ∃ out, (BrokenTicks.mk 50).Ticks endTicks 0 100 = .ok out ∧
      out = [Tick.mk 0 "0", Tick.mk 50 "50"] ++ [Tick.mk 100 (sprintf0f 100)] ∧
      out.length = 2 + 1 ∧
      out.getLast? = some (Tick.mk 100 (sprintf0f 100)) ∧
      (∀ i, i < 2 → out[i]? = [Tick.mk 0 "0", Tick.mk 50 "50"][i]?) :=
  BrokenTicks.Ticks_appends_max_tick.1 ⟨50⟩ endTicks 0 100
    [Tick.mk 0 "0", Tick.mk 50 "50"] (by rfl)

/-! ## BrokenColorMap: range, opacity, palette -/

/-- C7. In every state reached by any sequence of `SetHighCut`, `SetMax`,
`SetMin`, `SetAlpha` and `At` calls, from any initial state, the composite's
`Max()` is `OverFlow.Max()` and its `Min()` is `Base.Min()`. -/
theorem BrokenColorMap.Max_Min_read_through (c : BrokenColorMap) (M : ColorMap σ)
    (ops : List Op) (h : Heap σ) :
    c.Max M (c.run M ops h) = M.Max (c.run M ops h c.OverFlow) ∧
    c.Min M (c.run M ops h) = M.Min (c.run M ops h c.Base) :=
  ⟨rfl, rfl⟩

set_option maxRecDepth 100000 in
/-- C7 after a concrete call sequence on the sample objects, a panicking
`SetAlpha(2)` included. -/
theorem BrokenColorMap.Max_Min_read_through_witness :
    (BrokenColorMap.mk 0 1).Max rangeMap ((BrokenColorMap.mk 0 1).run rangeMap
      [.SetHighCut 60, .SetMax 200, .SetMin (-5), .SetAlpha 2, .At 10] sampleHeap) = 200 ∧
    (BrokenColorMap.mk 0 1).Min rangeMap ((BrokenColorMap.mk 0 1).run rangeMap
      [.SetHighCut 60, .SetMax 200, .SetMin (-5), .SetAlpha 2, .At 10] sampleHeap) = -5 :=
  have h := BrokenColorMap.Max_Min_read_through ⟨0, 1⟩ rangeMap
    [.SetHighCut 60, .SetMax 200, .SetMin (-5), .SetAlpha 2, .At 10] sampleHeap
  ⟨h.1.trans (by decide), h.2.trans (by decide)⟩

/-- C8. After any sequence of `SetAlpha` calls, from any initial state,
`Alpha()` is `(Base.Alpha() + OverFlow.Alpha()) / 2` for the opacities the two
sub-maps have then. -/
theorem BrokenColorMap.Alpha_is_mean_after_SetAlpha (c : BrokenColorMap) (M : ColorMap σ)
    (vs : List Float64) (h : Heap σ) :
    c.Alpha M (c.run M (vs.map Op.SetAlpha) h)
      = (M.Alpha (c.run M (vs.map Op.SetAlpha) h c.Base)
          + M.Alpha (c.run M (vs.map Op.SetAlpha) h c.OverFlow)) / 2 :=
  rfl

set_option maxRecDepth 100000 in
/-- C8 on the sample objects: after `SetAlpha(0.5)` and `SetAlpha(0.25)` the
mean of the two opacities is 0.25. -/
theorem BrokenColorMap.Alpha_is_mean_after_SetAlpha_witness :
    (BrokenColorMap.mk 0 1).Alpha rangeMap ((BrokenColorMap.mk 0 1).run rangeMap
      [.SetAlpha 0.5, .SetAlpha 0.25] sampleHeap) = 0.25 :=
  (BrokenColorMap.Alpha_is_mean_after_SetAlpha ⟨0, 1⟩ rangeMap [0.5, 0.25] sampleHeap).trans
    (by decide)

/-- C9. `Palette(n)` panics with "not implemented" for every integer `n`
(zero and the negative ones too) and every state of the sub-maps; no palette
is ever returned. -/
theorem BrokenColorMap.Palette_not_implemented (c : BrokenColorMap) (M : ColorMap σ)
    (n : Int) (h : Heap σ) :
    c.Palette M n h = .error "not implemented" ∧ ∀ p, c.Palette M n h ≠ .ok p := by
  constructor
  · rfl
  · intro p hp
    simp [BrokenColorMap.Palette] at hp

/-- C10. For sub-maps whose own `SetAlpha` rejects every `v < 0` and every
`v > 1`, leaving the opacity as it was, and accepts every `v` in `[0, 1]`: the
composite's `SetAlpha(v)` fails for every `v < 0` or `v > 1`, and then neither
sub-map's alpha has changed; it succeeds for every `v` in `[0, 1]`; and it
checks nothing itself, a failure of it being the failure of a sub-map's
`SetAlpha(v)`. -/
theorem BrokenColorMap.SetAlpha_fails_outside_unit (c : BrokenColorMap) (M : ColorMap σ)
    (v : Float64) (h : Heap σ)
    (hreject : ∀ s x, (x < 0 ∨ x > 1) →
      (M.SetAlpha s x).failure ≠ none ∧ M.Alpha (M.SetAlpha s x).state = M.Alpha s)
    (haccept : ∀ s x, 0 ≤ x → x ≤ 1 → (M.SetAlpha s x).failure = none) :
    ((v < 0 ∨ v > 1) →
      (c.SetAlpha M v h).failure ≠ none ∧
      M.Alpha ((c.SetAlpha M v h).state c.Base) = M.Alpha (h c.Base) ∧
      M.Alpha ((c.SetAlpha M v h).state c.OverFlow) = M.Alpha (h c.OverFlow)) ∧
    ((0 ≤ v ∧ v ≤ 1) → (c.SetAlpha M v h).failure = none) ∧
    (∃ s, (c.SetAlpha M v h).failure = (M.SetAlpha s v).failure) := by
  refine ⟨?_, ?_, ?_⟩
  · intro hv
    obtain ⟨hfail, hkeep⟩ := hreject (h c.Base) v hv
    cases hr : (M.SetAlpha (h c.Base) v).failure with
    | none => exact absurd hr hfail
    | some msg =>
      simp only [BrokenColorMap.SetAlpha, hr]
      refine ⟨by simp, ?_, ?_⟩
      · rw [Function.update_same]
        exact hkeep
      · by_cases hsame : c.OverFlow = c.Base
        · rw [hsame, Function.update_same]
          exact hkeep
        · rw [Function.update_noteq hsame]
  · intro hv
    have h1 := haccept (h c.Base) v hv.1 hv.2
    simp only [BrokenColorMap.SetAlpha, h1]
    exact haccept _ v hv.1 hv.2
  · cases hr : (M.SetAlpha (h c.Base) v).failure with
    | none =>
      simp only [BrokenColorMap.SetAlpha, hr]
      exact ⟨_, rfl⟩
    | some msg =>
      simp only [BrokenColorMap.SetAlpha, hr]
      exact ⟨h c.Base, hr.symm⟩

set_option maxRecDepth 100000 in
/-- C10 on the sample objects: 1.5 is rejected and both opacities stay 1; 0.5
is accepted. -/
theorem BrokenColorMap.SetAlpha_fails_outside_unit_witness :
    ((BrokenColorMap.mk 0 1).SetAlpha rangeMap 1.5 sampleHeap).failure ≠ none ∧
    rangeMap.Alpha (((BrokenColorMap.mk 0 1).SetAlpha rangeMap 1.5 sampleHeap).state 0) = 1 ∧
    rangeMap.Alpha (((BrokenColorMap.mk 0 1).SetAlpha rangeMap 1.5 sampleHeap).state 1) = 1 ∧
    ((BrokenColorMap.mk 0 1).SetAlpha rangeMap 0.5 sampleHeap).failure = none :=
  have hreject : ∀ (s : RangeMap) (x : Float64), (x < 0 ∨ x > 1) →
      (rangeMap.SetAlpha s x).failure ≠ none ∧
        rangeMap.Alpha (rangeMap.SetAlpha s x).state = rangeMap.Alpha s := by
    intro s x hx
    simp [rangeMap, hx]
  have haccept : ∀ (s : RangeMap) (x : Float64), 0 ≤ x → x ≤ 1 →
      (rangeMap.SetAlpha s x).failure = none := by
    intro s x h0 h1
    have h2 : ¬ (x < 0 ∨ x > 1) := by
      rintro (h | h)
      · exact Float64.not_gt_of_le h0 h
      · exact Float64.not_gt_of_le h1 h
    simp [rangeMap, h2]
  have hbad := (BrokenColorMap.SetAlpha_fails_outside_unit ⟨0, 1⟩ rangeMap 1.5 sampleHeap
    hreject haccept).1 (by decide)
  have hgood := (BrokenColorMap.SetAlpha_fails_outside_unit ⟨0, 1⟩ rangeMap 0.5 sampleHeap
    hreject haccept).2.1 (by decide)
  ⟨hbad.1, hbad.2.1, hbad.2.2, hgood⟩

/-! ## BrokenColorMap: setters and the cut -/

/-- After `SetHighCut(v)` the base object is what its `SetMax(v)` made of it,
when the overflow object is another one. -/
theorem BrokenColorMap.SetHighCut_base (c : BrokenColorMap) (M : ColorMap σ) (v : Float64)
    (h : Heap σ) (hdistinct : c.Base ≠ c.OverFlow) :
    c.SetHighCut M v h c.Base = M.SetMax (h c.Base) v := by
  simp only [BrokenColorMap.SetHighCut]
  rw [Function.update_noteq hdistinct, Function.update_same]

/-- After `SetHighCut(v)` the overflow object is what its `SetMin(v)` made of
it, when the base object is another one. -/
theorem BrokenColorMap.SetHighCut_overflow (c : BrokenColorMap) (M : ColorMap σ)
    (v : Float64) (h : Heap σ) (hdistinct : c.Base ≠ c.OverFlow) :
    c.SetHighCut M v h c.OverFlow = M.SetMin (h c.OverFlow) v := by
  simp only [BrokenColorMap.SetHighCut]
  rw [Function.update_same, Function.update_noteq (Ne.symm hdistinct)]

/-- After `SetHighCut(v)` the base maximum is `v`, for a `SetMax` that stores
and either two distinct objects or a `SetMin` that leaves the maximum alone. -/
theorem BrokenColorMap.SetHighCut_base_max (c : BrokenColorMap) (M : ColorMap σ)
    (v : Float64) (h : Heap σ) (hmax : ∀ s x, M.Max (M.SetMax s x) = x)
    (hsep : c.Base ≠ c.OverFlow ∨ ∀ s x, M.Max (M.SetMin s x) = M.Max s) :
    M.Max (c.SetHighCut M v h c.Base) = v := by
  by_cases hsame : c.Base = c.OverFlow
  · rcases hsep with hd | hframe
    · exact absurd hsame hd
    · simp only [BrokenColorMap.SetHighCut]
      rw [hsame, Function.update_same, Function.update_same, hframe]
      exact hmax _ _
  · rw [BrokenColorMap.SetHighCut_base c M v h hsame]
    exact hmax _ _

/-- C11. `SetMax(v)` followed by `Max()` returns `v`, for every `v` and every
state, given sub-maps for which `SetMax(v)` followed by `Max()` returns `v`. -/
theorem BrokenColorMap.SetMax_then_Max (c : BrokenColorMap) (M : ColorMap σ)
    (v : Float64) (h : Heap σ) (hmax : ∀ s x, M.Max (M.SetMax s x) = x) :
    c.Max M (c.SetMax M v h) = v := by
  simp only [BrokenColorMap.Max, BrokenColorMap.SetMax]
  rw [Function.update_same]
  exact hmax _ _

/-- C11 on the sample objects: the maximum 200. -/
theorem BrokenColorMap.SetMax_then_Max_witness :
    (BrokenColorMap.mk 0 1).Max rangeMap ((BrokenColorMap.mk 0 1).SetMax rangeMap 200
      sampleHeap) = 200 :=
  BrokenColorMap.SetMax_then_Max ⟨0, 1⟩ rangeMap 200 sampleHeap (fun _ _ => rfl)

set_option maxRecDepth 100000 in
/-- C12 at a failing input. The base object covers `[0, 50]` and the overflow
object `[20, 30]`, each answering with an error exactly below its `Min` or
above its `Max`; the composite has `Min() = 0` and `Max() = 30`. The value 40
is above `Max()`, yet `At(40)` is the base map's colour and no error: 40 is not
above `Base.Max()`, so the base map is asked, and 40 is inside its range. The
same state is reached from lined-up objects by `SetMax(30)`. -/
theorem BrokenColorMap.At_above_Max_without_error :
    (∀ (s : RangeMap) (v : Float64),
      (v < rangeMap.Min s ∨ v > rangeMap.Max s) ↔ ∃ e, rangeMap.At s v = .error e) ∧
    (BrokenColorMap.mk 0 1).Min rangeMap unsyncedHeap = 0 ∧
    (BrokenColorMap.mk 0 1).Max rangeMap unsyncedHeap = 30 ∧
    (40 : Float64) > (BrokenColorMap.mk 0 1).Max rangeMap unsyncedHeap ∧
    (BrokenColorMap.mk 0 1).At rangeMap 40 unsyncedHeap = .ok ⟨0, 0, 0, 65535⟩ ∧
    (BrokenColorMap.mk 0 1).Max rangeMap
      ((BrokenColorMap.mk 0 1).SetMax rangeMap 30 sampleHeap) = 30 ∧
    (BrokenColorMap.mk 0 1).At rangeMap 40
      ((BrokenColorMap.mk 0 1).SetMax rangeMap 30 sampleHeap) = .ok ⟨0, 0, 0, 65535⟩ := by
  refine ⟨?_, by decide, by decide, by decide, by rfl, by decide, by rfl⟩
  intro s v
  simp only [rangeMap]
  by_cases h1 : v < s.min
  · simp [h1]
  · by_cases h2 : v > s.max
    · simp [h1, h2]
    · simp [h1, h2]

/-- C13. On two distinct sub-map objects whose `SetMax` leaves the minimum and
whose `SetMin` leaves the maximum as they were: `SetMax(v)` changes the
overflow object only, so the base object (and with it `Base.Max()`) is
untouched and `OverFlow.Min()` keeps its value; `SetMin(v)` changes the base
object only, so the overflow object is untouched and `Base.Max()` keeps its
value. The cut is the same before and after either call. -/
theorem BrokenColorMap.SetMax_SetMin_keep_cut (c : BrokenColorMap) (M : ColorMap σ)
    (v : Float64) (h : Heap σ) (hdistinct : c.Base ≠ c.OverFlow)
    (hSetMax : ∀ s x, M.Min (M.SetMax s x) = M.Min s)
    (hSetMin : ∀ s x, M.Max (M.SetMin s x) = M.Max s) :
    (∀ r, r ≠ c.OverFlow → c.SetMax M v h r = h r) ∧
    c.SetMax M v h c.Base = h c.Base ∧
    M.Max (c.SetMax M v h c.Base) = M.Max (h c.Base) ∧
    M.Min (c.SetMax M v h c.OverFlow) = M.Min (h c.OverFlow) ∧
    (∀ r, r ≠ c.Base → c.SetMin M v h r = h r) ∧
    c.SetMin M v h c.OverFlow = h c.OverFlow ∧
    M.Min (c.SetMin M v h c.OverFlow) = M.Min (h c.OverFlow) ∧
    M.Max (c.SetMin M v h c.Base) = M.Max (h c.Base) := by
  have hmaxOther : ∀ r, r ≠ c.OverFlow → c.SetMax M v h r = h r := by
    intro r hr
    simp only [BrokenColorMap.SetMax]
    rw [Function.update_noteq hr]
  have hminOther : ∀ r, r ≠ c.Base → c.SetMin M v h r = h r := by
    intro r hr
    simp only [BrokenColorMap.SetMin]
    rw [Function.update_noteq hr]
  refine ⟨hmaxOther, hmaxOther _ hdistinct, ?_, ?_, hminOther,
    hminOther _ (Ne.symm hdistinct), ?_, ?_⟩
  · rw [hmaxOther _ hdistinct]
  · simp only [BrokenColorMap.SetMax]
    rw [Function.update_same]
    exact hSetMax _ _
  · rw [hminOther _ (Ne.symm hdistinct)]
  · simp only [BrokenColorMap.SetMin]
    rw [Function.update_same]
    exact hSetMin _ _

set_option maxRecDepth 100000 in
/-- C13 on the sample objects, whose cut is 50: it is 50 after `SetMax(200)`
and after `SetMin(-5)`. -/
theorem BrokenColorMap.SetMax_SetMin_keep_cut_witness :
    rangeMap.Max ((BrokenColorMap.mk 0 1).SetMax rangeMap 200 sampleHeap 0) = 50 ∧
    rangeMap.Min ((BrokenColorMap.mk 0 1).SetMax rangeMap 200 sampleHeap 1) = 50 ∧
    rangeMap.Min ((BrokenColorMap.mk 0 1).SetMin rangeMap (-5) sampleHeap 1) = 50 ∧
    rangeMap.Max ((BrokenColorMap.mk 0 1).SetMin rangeMap (-5) sampleHeap 0) = 50 :=
  have hk := BrokenColorMap.SetMax_SetMin_keep_cut ⟨0, 1⟩ rangeMap 200 sampleHeap
    (by decide) (fun _ _ => rfl) (fun _ _ => rfl)
  have hl := BrokenColorMap.SetMax_SetMin_keep_cut ⟨0, 1⟩ rangeMap (-5) sampleHeap
    (by decide) (fun _ _ => rfl) (fun _ _ => rfl)
  ⟨hk.2.2.1, hk.2.2.2.1, hl.2.2.2.2.2.2.1, hl.2.2.2.2.2.2.2⟩

/-- C14. After `SetHighCut(cut)`, from any prior state, `At(cut)` is the base
map's own answer for `cut`, and `At(v)` is the overflow map's own answer for
every `v > cut`. The sub-maps are any whose `SetMax` stores its argument, the
two objects being distinct or `SetMin` leaving the maximum alone. -/
theorem BrokenColorMap.At_at_cut_is_base (c : BrokenColorMap) (M : ColorMap σ)
    (cut : Float64) (h : Heap σ) (hmax : ∀ s x, M.Max (M.SetMax s x) = x)
    (hsep : c.Base ≠ c.OverFlow ∨ ∀ s x, M.Max (M.SetMin s x) = M.Max s) :
    c.At M cut (c.SetHighCut M cut h) = M.At (c.SetHighCut M cut h c.Base) cut ∧
    ∀ v, v > cut →
      c.At M v (c.SetHighCut M cut h) = M.At (c.SetHighCut M cut h c.OverFlow) v := by
  have hcut := BrokenColorMap.SetHighCut_base_max c M cut h hmax hsep
  constructor
  · simp only [BrokenColorMap.At, hcut, if_neg (Float64.not_gt_self cut)]
  · intro v hv
    simp only [BrokenColorMap.At, hcut, if_pos hv]

set_option maxRecDepth 100000 in
/-- C14 on the sample objects with the cut 60: `At(60)` is the base object's
answer and `At(61)` the overflow object's. -/
theorem BrokenColorMap.At_at_cut_is_base_witness :
    (BrokenColorMap.mk 0 1).At rangeMap 60 ((BrokenColorMap.mk 0 1).SetHighCut rangeMap 60
      sampleHeap)
      = rangeMap.At ((BrokenColorMap.mk 0 1).SetHighCut rangeMap 60 sampleHeap 0) 60 ∧
    (BrokenColorMap.mk 0 1).At rangeMap 61 ((BrokenColorMap.mk 0 1).SetHighCut rangeMap 60
      sampleHeap)
      = rangeMap.At ((BrokenColorMap.mk 0 1).SetHighCut rangeMap 60 sampleHeap 1) 61 :=
  have hk := BrokenColorMap.At_at_cut_is_base ⟨0, 1⟩ rangeMap 60 sampleHeap
    (fun _ _ => rfl) (Or.inl (by decide))
  ⟨hk.1, hk.2 61 (by decide)⟩

/-- C16. After `SetHighCut(cut)` on two distinct sub-map objects whose
`SetMax` and `SetMin` store their argument and which answer without an error
every value that is neither below their `Min` nor above their `Max`: every `v`
with `Min() <= v <= Max()` gets a colour from `At(v)` and no error; the base
map answers for `v <= cut` and the overflow map for `v > cut`. -/
theorem BrokenColorMap.At_covers_range (c : BrokenColorMap) (M : ColorMap σ)
    (cut v : Float64) (h : Heap σ) (hdistinct : c.Base ≠ c.OverFlow)
    (hmax : ∀ s x, M.Max (M.SetMax s x) = x)
    (hmin : ∀ s x, M.Min (M.SetMin s x) = x)
    (hinside : ∀ s x, ¬ (x < M.Min s ∨ x > M.Max s) → ∃ col, M.At s x = .ok col)
    (hlo : c.Min M (c.SetHighCut M cut h) ≤ v)
    (hhi : v ≤ c.Max M (c.SetHighCut M cut h)) :
    (∃ col, c.At M v (c.SetHighCut M cut h) = .ok col) ∧
    (v ≤ cut → c.At M v (c.SetHighCut M cut h) = M.At (c.SetHighCut M cut h c.Base) v) ∧
    (v > cut →
      c.At M v (c.SetHighCut M cut h) = M.At (c.SetHighCut M cut h c.OverFlow) v) := by
  have hbase : M.Max (c.SetHighCut M cut h c.Base) = cut :=
    BrokenColorMap.SetHighCut_base_max c M cut h hmax (Or.inl hdistinct)
  have hover : M.Min (c.SetHighCut M cut h c.OverFlow) = cut := by
    rw [BrokenColorMap.SetHighCut_overflow c M cut h hdistinct]
    exact hmin _ _
  refine ⟨?_, ?_, ?_⟩
  · by_cases hv : v > cut
    · simp only [BrokenColorMap.At, hbase, if_pos hv]
      apply hinside
      rw [hover]
      rintro (hbad | hbad)
      · exact Float64.lt_asymm hv hbad
      · exact Float64.not_gt_of_le hhi hbad
    · simp only [BrokenColorMap.At, hbase, if_neg hv]
      apply hinside
      rw [hbase]
      rintro (hbad | hbad)
      · exact Float64.not_gt_of_le hlo hbad
      · exact hv hbad
  · intro hv
    simp only [BrokenColorMap.At, hbase, if_neg (Float64.not_gt_of_le hv)]
  · intro hv
    simp only [BrokenColorMap.At, hbase, if_pos hv]

set_option maxRecDepth 100000 in
/-- C16 on the sample objects with the cut 60: 60 and 75 lie in
`[Min(), Max()] = [0, 100]` and both get a colour. -/
theorem BrokenColorMap.At_covers_range_witness :
    (∃ col, (BrokenColorMap.mk 0 1).At rangeMap 60
      ((BrokenColorMap.mk 0 1).SetHighCut rangeMap 60 sampleHeap) = .ok col) ∧
    (∃ col, (BrokenColorMap.mk 0 1).At rangeMap 75
      ((BrokenColorMap.mk 0 1).SetHighCut rangeMap 60 sampleHeap) = .ok col) :=
  have hinside : ∀ (s : RangeMap) (x : Float64),
      ¬ (x < rangeMap.Min s ∨ x > rangeMap.Max s) → ∃ col, rangeMap.At s x = .ok col := by
    intro s x hx
    have h1 : ¬ x < s.min := fun hlt => hx (Or.inl hlt)
    have h2 : ¬ x > s.max := fun hgt => hx (Or.inr hgt)
    exact ⟨⟨0, 0, 0, 65535⟩, by simp [rangeMap, h1, h2]⟩
  ⟨(BrokenColorMap.At_covers_range ⟨0, 1⟩ rangeMap 60 60 sampleHeap (by decide)
      (fun _ _ => rfl) (fun _ _ => rfl) hinside (by decide) (by decide)).1,
   (BrokenColorMap.At_covers_range ⟨0, 1⟩ rangeMap 60 75 sampleHeap (by decide)
      (fun _ _ => rfl) (fun _ _ => rfl) hinside (by decide) (by decide)).1⟩

/-- C19. `SetHighCut(v)` on two distinct sub-map objects whose `SetMax` and
`SetMin` change nothing but the bound they name leaves the composite's `Min()`,
`Max()` and `Alpha()` as they were. -/
theorem BrokenColorMap.SetHighCut_keeps_range_and_alpha (c : BrokenColorMap)
    (M : ColorMap σ) (v : Float64) (h : Heap σ) (hdistinct : c.Base ≠ c.OverFlow)
    (hMaxMin : ∀ s x, M.Min (M.SetMax s x) = M.Min s)
    (hMaxAlpha : ∀ s x, M.Alpha (M.SetMax s x) = M.Alpha s)
    (hMinMax : ∀ s x, M.Max (M.SetMin s x) = M.Max s)
    (hMinAlpha : ∀ s x, M.Alpha (M.SetMin s x) = M.Alpha s) :
    c.Min M (c.SetHighCut M v h) = c.Min M h ∧
    c.Max M (c.SetHighCut M v h) = c.Max M h ∧
    c.Alpha M (c.SetHighCut M v h) = c.Alpha M h := by
  have hb := BrokenColorMap.SetHighCut_base c M v h hdistinct
  have ho := BrokenColorMap.SetHighCut_overflow c M v h hdistinct
  refine ⟨?_, ?_, ?_⟩
  · simp only [BrokenColorMap.Min, hb, hMaxMin]
  · simp only [BrokenColorMap.Max, ho, hMinMax]
  · simp only [BrokenColorMap.Alpha, hb, ho, hMaxAlpha, hMinAlpha]

set_option maxRecDepth 100000 in
/-- C19 on the sample objects: after `SetHighCut(60)` the range is still
`[0, 100]` and the opacity still 1. -/
theorem BrokenColorMap.SetHighCut_keeps_range_and_alpha_witness :
    (BrokenColorMap.mk 0 1).Min rangeMap
      ((BrokenColorMap.mk 0 1).SetHighCut rangeMap 60 sampleHeap) = 0 ∧
    (BrokenColorMap.mk 0 1).Max rangeMap
      ((BrokenColorMap.mk 0 1).SetHighCut rangeMap 60 sampleHeap) = 100 ∧
    (BrokenColorMap.mk 0 1).Alpha rangeMap
      ((BrokenColorMap.mk 0 1).SetHighCut rangeMap 60 sampleHeap) = 1 :=
  have hk := BrokenColorMap.SetHighCut_keeps_range_and_alpha ⟨0, 1⟩ rangeMap 60 sampleHeap
    (by decide) (fun _ _ => rfl) (fun _ _ => rfl) (fun _ _ => rfl) (fun _ _ => rfl)
  ⟨hk.1.trans (by decide), hk.2.1.trans (by decide), hk.2.2.trans (by decide)⟩

/-! ## BrokenScale.Normalize: order and continuity -/

set_option maxRecDepth 100000 in
/-- C17 as stated fails on float64. With `min = 0 < HighCut = 3 < max = 1e18`
and `HighCutFraction = 0.1`: `Normalize` of 3 is `0.1 * 3 / 3 =
0.10000000000000002`, while `Normalize` of 4 is `0.1 + 0.9 * 1 / (1e18 - 3)`,
which rounds to `0.1`; so `3 <= 4` and the result for 3 is the larger one. -/
theorem BrokenScale.Normalize_monotone_counterexample :
    (0 : Float64) < 3 ∧ (3 : Float64) < 1000000000000000000 ∧
    (0 : Float64) ≤ 0.1 ∧ (0.1 : Float64) ≤ 1 ∧ (3 : Float64) ≤ 4 ∧
    (BrokenScale.mk (3 : Float64) 0.1).Normalize 0 1000000000000000000 3
      = Float64.fin false 7205759403792795 (-56) ∧
    (BrokenScale.mk (3 : Float64) 0.1).Normalize 0 1000000000000000000 4
      = Float64.fin false 7205759403792794 (-56) ∧
    (BrokenScale.mk (3 : Float64) 0.1).Normalize 0 1000000000000000000 4
      < (BrokenScale.mk (3 : Float64) 0.1).Normalize 0 1000000000000000000 3 ∧
    ¬ ((BrokenScale.mk (3 : Float64) 0.1).Normalize 0 1000000000000000000 3
      ≤ (BrokenScale.mk (3 : Float64) 0.1).Normalize 0 1000000000000000000 4) := by
  decide

/-- In exact arithmetic the lower piece does not exceed `HighCutFraction`. -/
theorem BrokenScale.Normalize_lower_le (b : BrokenScale ℚ) (min max x : ℚ)
    (hlo : min < b.HighCut) (hf0 : 0 ≤ b.HighCutFraction) (hx : x ≤ b.HighCut) :
    b.Normalize min max x ≤ b.HighCutFraction := by
  rw [BrokenScale.Normalize_lower b min max x (not_lt.mpr hx)]
  have hd : 0 < b.HighCut - min := sub_pos.mpr hlo
  rw [div_le_iff₀ hd]
  exact mul_le_mul_of_nonneg_left (by linarith) hf0

/-- In exact arithmetic the upper piece is the fraction plus a term that is
positive for `HighCutFraction < 1` and never negative for
`HighCutFraction <= 1`. -/
theorem BrokenScale.Normalize_upper_ge (b : BrokenScale ℚ) (min max x : ℚ)
    (hhi : b.HighCut < max) (hx : b.HighCut < x) :
    (b.HighCutFraction ≤ 1 → b.HighCutFraction ≤ b.Normalize min max x) ∧
    (b.HighCutFraction < 1 → b.HighCutFraction < b.Normalize min max x) := by
  rw [BrokenScale.Normalize_upper b min max x hx]
  have hd : 0 < max - b.HighCut := sub_pos.mpr hhi
  have hxd : 0 < x - b.HighCut := sub_pos.mpr hx
  constructor
  · intro hf1
    have : 0 ≤ (1 - b.HighCutFraction) * (x - b.HighCut) / (max - b.HighCut) :=
      div_nonneg (mul_nonneg (sub_nonneg.mpr hf1) hxd.le) hd.le
    linarith
  · intro hf1
    have : 0 < (1 - b.HighCutFraction) * (x - b.HighCut) / (max - b.HighCut) :=
      div_pos (mul_pos (sub_pos.mpr hf1) hxd) hd
    linarith

/-- C17, amended. In exact arithmetic (the formula of `Normalize` without
float64 rounding), for every `min < HighCut < max` and
`0 <= HighCutFraction <= 1`: `x1 <= x2` implies
`Normalize(min, max, x1) <= Normalize(min, max, x2)` for all `x1`, `x2`, on
either side of `HighCut` or on both, and for `0 < HighCutFraction < 1` the
inequality is strict whenever `x1 < x2`. -/
theorem BrokenScale.Normalize_monotone_exact (b : BrokenScale ℚ) (min max : ℚ)
    (hlo : min < b.HighCut) (hhi : b.HighCut < max)
    (hf0 : 0 ≤ b.HighCutFraction) (hf1 : b.HighCutFraction ≤ 1) :
    (∀ x1 x2, x1 ≤ x2 → b.Normalize min max x1 ≤ b.Normalize min max x2) ∧
    (0 < b.HighCutFraction → b.HighCutFraction < 1 →
      ∀ x1 x2, x1 < x2 → b.Normalize min max x1 < b.Normalize min max x2) := by
  have hd1 : 0 < b.HighCut - min := sub_pos.mpr hlo
  have hd2 : 0 < max - b.HighCut := sub_pos.mpr hhi
  constructor
  · intro x1 x2 h12
    rcases le_or_lt x2 b.HighCut with h2 | h2
    · rw [BrokenScale.Normalize_lower b min max x1 (not_lt.mpr (h12.trans h2)),
        BrokenScale.Normalize_lower b min max x2 (not_lt.mpr h2)]
      rw [div_le_div_iff_of_pos_right hd1]
      exact mul_le_mul_of_nonneg_left (by linarith) hf0
    · rcases le_or_lt x1 b.HighCut with h1 | h1
      · exact (BrokenScale.Normalize_lower_le b min max x1 hlo hf0 h1).trans
          ((BrokenScale.Normalize_upper_ge b min max x2 hhi h2).1 hf1)
      · rw [BrokenScale.Normalize_upper b min max x1 h1,
          BrokenScale.Normalize_upper b min max x2 h2]
        have : (1 - b.HighCutFraction) * (x1 - b.HighCut) / (max - b.HighCut)
            ≤ (1 - b.HighCutFraction) * (x2 - b.HighCut) / (max - b.HighCut) := by
          rw [div_le_div_iff_of_pos_right hd2]
          exact mul_le_mul_of_nonneg_left (by linarith) (sub_nonneg.mpr hf1)
        linarith
  · intro hpos hlt x1 x2 h12
    rcases le_or_lt x2 b.HighCut with h2 | h2
    · rw [BrokenScale.Normalize_lower b min max x1 (not_lt.mpr (h12.le.trans h2)),
        BrokenScale.Normalize_lower b min max x2 (not_lt.mpr h2)]
      rw [div_lt_div_iff_of_pos_right hd1]
      exact mul_lt_mul_of_pos_left (by linarith) hpos
    · rcases le_or_lt x1 b.HighCut with h1 | h1
      · exact lt_of_le_of_lt (BrokenScale.Normalize_lower_le b min max x1 hlo hf0 h1)
          ((BrokenScale.Normalize_upper_ge b min max x2 hhi h2).2 hlt)
      · rw [BrokenScale.Normalize_upper b min max x1 h1,
          BrokenScale.Normalize_upper b min max x2 h2]
        have : (1 - b.HighCutFraction) * (x1 - b.HighCut) / (max - b.HighCut)
            < (1 - b.HighCutFraction) * (x2 - b.HighCut) / (max - b.HighCut) := by
          rw [div_lt_div_iff_of_pos_right hd2]
          exact mul_lt_mul_of_pos_left (by linarith) (sub_pos.mpr hlt)
        linarith

/-- C17, amended, at the input of the counterexample: exactly, 3 and 4 are
mapped in their order, and strictly so. -/
theorem BrokenScale.Normalize_monotone_exact_witness :
    (BrokenScale.mk (3 : ℚ) (1 / 10)).Normalize 0 1000000000000000000 3
      ≤ (BrokenScale.mk (3 : ℚ) (1 / 10)).Normalize 0 1000000000000000000 4 ∧
    (BrokenScale.mk (3 : ℚ) (1 / 10)).Normalize 0 1000000000000000000 3
      < (BrokenScale.mk (3 : ℚ) (1 / 10)).Normalize 0 1000000000000000000 4 :=
  have hk := BrokenScale.Normalize_monotone_exact ⟨3, 1 / 10⟩ 0 1000000000000000000
    (by norm_num) (by norm_num) (by norm_num) (by norm_num)
  ⟨hk.1 3 4 (by norm_num), hk.2 (by norm_num) (by norm_num) 3 4 (by norm_num)⟩

set_option maxRecDepth 100000 in
/-- C18 as stated fails on float64. With `min = 0 < HighCut = 3 < max = 10`,
`HighCutFraction = 0.1` and `x = 4`: the result for `x` exceeds the value at
the cut by `0.12857142857142856`, while
`(1 - HighCutFraction) * (x - HighCut) / (max - HighCut)` is
`0.1285714285714286`. -/
theorem BrokenScale.Normalize_step_counterexample :
    (0 : Float64) < 3 ∧ (3 : Float64) < 10 ∧ (4 : Float64) > 3 ∧
    (BrokenScale.mk (3 : Float64) 0.1).Normalize 0 10 4
        - (BrokenScale.mk (3 : Float64) 0.1).Normalize 0 10 3
      = Float64.fin false 4632273902438224 (-55) ∧
    ((1 : Float64) - 0.1) * (4 - 3) / (10 - 3) = Float64.fin false 4632273902438225 (-55) ∧
    (BrokenScale.mk (3 : Float64) 0.1).Normalize 0 10 4
        - (BrokenScale.mk (3 : Float64) 0.1).Normalize 0 10 3
      ≠ ((1 : Float64) - 0.1) * (4 - 3) / (10 - 3) := by
  decide

/-- The size of a scaled quotient. -/
theorem abs_mul_div_pos (a t d : ℚ) (hd : 0 < d) : |a * t / d| = |a| / d * |t| := by
  rw [abs_div, abs_mul, abs_of_pos hd]
  ring

/-- A slope times a distance below `ε / K` stays below `ε` when `K` exceeds
the slope. -/
theorem slope_mul_lt (k K t ε : ℚ) (hk : 0 ≤ k) (hkK : k < K) (hε : 0 < ε)
    (ht : |t| < ε / K) : k * |t| < ε := by
  have hK : 0 < K := lt_of_le_of_lt hk hkK
  have hδ : 0 < ε / K := div_pos hε hK
  calc k * |t| ≤ k * (ε / K) := mul_le_mul_of_nonneg_left ht.le hk
    _ < K * (ε / K) := mul_lt_mul_of_pos_right hkK hδ
    _ = ε := mul_div_cancel₀ ε hK.ne.symm

/-- In exact arithmetic, the distance of `Normalize` from its value at the cut
is a slope times the distance of `x` from the cut. -/
theorem BrokenScale.Normalize_sub_cut (b : BrokenScale ℚ) (min max x : ℚ)
    (hlo : min < b.HighCut) :
    (b.HighCut < x → b.Normalize min max x - b.Normalize min max b.HighCut
      = (1 - b.HighCutFraction) * (x - b.HighCut) / (max - b.HighCut)) ∧
    (x ≤ b.HighCut → b.Normalize min max x - b.Normalize min max b.HighCut
      = b.HighCutFraction * (x - b.HighCut) / (b.HighCut - min)) := by
  have hd : b.HighCut - min ≠ 0 := (sub_pos.mpr hlo).ne.symm
  have hcut : b.Normalize min max b.HighCut = b.HighCutFraction := by
    rw [BrokenScale.Normalize_lower b min max b.HighCut (lt_irrefl _), mul_div_assoc,
      div_self hd, mul_one]
  constructor
  · intro hx
    rw [hcut, BrokenScale.Normalize_upper b min max x hx]
    ring
  · intro hx
    rw [hcut, BrokenScale.Normalize_lower b min max x (not_lt.mpr hx)]
    field_simp
    ring

/-- C18, amended. In exact arithmetic (the formula of `Normalize` without
float64 rounding), for every `min < HighCut < max`: the result for `x >
HighCut` exceeds the value at the cut by exactly
`(1 - HighCutFraction) * (x - HighCut) / (max - HighCut)`; that excess tends to
0 as `x` approaches `HighCut` from above (it is below any `ε > 0` for all `x`
within some `δ > 0` above the cut); and `Normalize` is continuous in `x` at
`HighCut` (within `ε` of the value at the cut for all `x` within some `δ` of
the cut, on either side). -/
theorem BrokenScale.Normalize_continuous_at_cut_exact (b : BrokenScale ℚ) (min max : ℚ)
    (hlo : min < b.HighCut) (hhi : b.HighCut < max) :
    (∀ x, b.HighCut < x → b.Normalize min max x - b.Normalize min max b.HighCut
      = (1 - b.HighCutFraction) * (x - b.HighCut) / (max - b.HighCut)) ∧
    (∀ ε, 0 < ε → ∃ δ, 0 < δ ∧ ∀ x, b.HighCut < x → x < b.HighCut + δ →
      |(1 - b.HighCutFraction) * (x - b.HighCut) / (max - b.HighCut)| < ε) ∧
    (∀ ε, 0 < ε → ∃ δ, 0 < δ ∧ ∀ x, |x - b.HighCut| < δ →
      |b.Normalize min max x - b.Normalize min max b.HighCut| < ε) := by
  have hd1 : 0 < b.HighCut - min := sub_pos.mpr hlo
  have hd2 : 0 < max - b.HighCut := sub_pos.mpr hhi
  have hk1 : 0 ≤ |1 - b.HighCutFraction| / (max - b.HighCut) :=
    div_nonneg (abs_nonneg _) hd2.le
  have hk2 : 0 ≤ |b.HighCutFraction| / (b.HighCut - min) :=
    div_nonneg (abs_nonneg _) hd1.le
  have hK : 0 < |1 - b.HighCutFraction| / (max - b.HighCut)
      + |b.HighCutFraction| / (b.HighCut - min) + 1 := by linarith
  refine ⟨fun x => (BrokenScale.Normalize_sub_cut b min max x hlo).1, ?_, ?_⟩
  · intro ε hε
    refine ⟨_, div_pos hε hK, ?_⟩
    intro x hx hxδ
    rw [abs_mul_div_pos _ _ _ hd2]
    refine slope_mul_lt _ (|1 - b.HighCutFraction| / (max - b.HighCut)
      + |b.HighCutFraction| / (b.HighCut - min) + 1) _ ε hk1 (by linarith) hε ?_
    rw [abs_of_pos (sub_pos.mpr hx)]
    linarith
  · intro ε hε
    refine ⟨_, div_pos hε hK, ?_⟩
    intro x hxδ
    rcases le_or_lt x b.HighCut with hx | hx
    · rw [(BrokenScale.Normalize_sub_cut b min max x hlo).2 hx, abs_mul_div_pos _ _ _ hd1]
      exact slope_mul_lt _ (|1 - b.HighCutFraction| / (max - b.HighCut)
        + |b.HighCutFraction| / (b.HighCut - min) + 1) _ ε hk2 (by linarith) hε hxδ
    · rw [(BrokenScale.Normalize_sub_cut b min max x hlo).1 hx, abs_mul_div_pos _ _ _ hd2]
      exact slope_mul_lt _ (|1 - b.HighCutFraction| / (max - b.HighCut)
        + |b.HighCutFraction| / (b.HighCut - min) + 1) _ ε hk1 (by linarith) hε hxδ

/-- C18, amended, at the input of the counterexample: exactly, the result for
4 exceeds the value at the cut 3 by `(1 - 1/10) * (4 - 3) / (10 - 3)`. -/
theorem BrokenScale.Normalize_continuous_at_cut_exact_witness :
    (BrokenScale.mk (3 : ℚ) (1 / 10)).Normalize 0 10 4
        - (BrokenScale.mk (3 : ℚ) (1 / 10)).Normalize 0 10 3
      = (1 - 1 / 10) * (4 - 3) / (10 - 3) :=
  (BrokenScale.Normalize_continuous_at_cut_exact ⟨3, 1 / 10⟩ 0 10 (by norm_num)
    (by norm_num)).1 4 (by norm_num)

/-! ## Exactness of float64 rounding -/

/-- The scaling `shl` as a rational. -/
theorem shl_cast (x : Nat) (k : Int) : ((shl x k : Nat) : ℚ) = x * 2 ^ k.toNat := by
  simp [shl]

/-- A power of two with a clipped exponent, by the integer power. -/
theorem two_pow_toNat (k : Int) : (2 : ℚ) ^ k.toNat = 2 ^ k * 2 ^ (-k).toNat := by
  rcases le_or_lt 0 k with hk | hk
  · have h1 : (-k).toNat = 0 := Int.toNat_of_nonpos (by omega)
    rw [h1, pow_zero, mul_one, ← zpow_natCast, Int.toNat_of_nonneg hk]
  · have h1 : k.toNat = 0 := Int.toNat_of_nonpos (by omega)
    rw [h1, pow_zero, ← zpow_natCast, Int.toNat_of_nonneg (by omega : 0 ≤ -k),
      ← zpow_add₀ (by norm_num : (2 : ℚ) ≠ 0)]
    simp

/-- Scaling numerator and denominator in opposite directions multiplies the
quotient by a power of two. -/
theorem shl_ratio (n d : Nat) (k : Int) (hd : 0 < d) :
    ((shl n k : Nat) : ℚ) / (shl d (-k) : Nat) = (n : ℚ) / d * 2 ^ k := by
  have hd' : (d : ℚ) ≠ 0 := by exact_mod_cast hd.ne.symm
  have hp : (2 : ℚ) ^ (-k).toNat ≠ 0 := by positivity
  rw [shl_cast, shl_cast, two_pow_toNat k]
  field_simp
  ring

/-- A positive rational lies in one binade only. -/
theorem zpow_two_unique (x : ℚ) (a b : Int) (ha1 : (2 : ℚ) ^ a ≤ x) (ha2 : x < 2 ^ (a + 1))
    (hb1 : (2 : ℚ) ^ b ≤ x) (hb2 : x < 2 ^ (b + 1)) : a = b := by
  have h1 : a < b + 1 := (zpow_lt_zpow_iff_right₀ (by norm_num : (1 : ℚ) < 2)).mp
    (lt_of_le_of_lt ha1 hb2)
  have h2 : b < a + 1 := (zpow_lt_zpow_iff_right₀ (by norm_num : (1 : ℚ) < 2)).mp
    (lt_of_le_of_lt hb1 ha2)
  omega

/-- The bounds of `log2_spec` as rationals. -/
theorem log2_cast (n : Nat) (hn : 0 < n) :
    (2 : ℚ) ^ (log2 n : Int) ≤ n ∧ (n : ℚ) < 2 ^ ((log2 n : Int) + 1) := by
  obtain ⟨h1, h2⟩ := log2_spec n hn
  constructor
  · rw [zpow_natCast]
    exact_mod_cast h1
  · have : ((log2 n : Int) + 1) = ((log2 n + 1 : Nat) : Int) := by push_cast; ring
    rw [this, zpow_natCast]
    exact_mod_cast h2


/-- The result of `floorLog2 n d` is the binade of `n / d`. -/
theorem floorLog2_spec (n d : Nat) (hn : 0 < n) (hd : 0 < d) :
    (2 : ℚ) ^ floorLog2 n d ≤ (n : ℚ) / d ∧ (n : ℚ) / d < 2 ^ (floorLog2 n d + 1) := by
  obtain ⟨hn1, hn2⟩ := log2_cast n hn
  obtain ⟨hd1, hd2⟩ := log2_cast d hd
  have hdq : (0 : ℚ) < d := by exact_mod_cast hd
  have h2 : (2 : ℚ) ≠ 0 := by norm_num
  have hpd : (0 : ℚ) < 2 ^ (log2 d : Int) := zpow_pos (by norm_num) _
  -- the quotient lies strictly between 2^(k-1) and 2^(k+1)
  have hlow : (2 : ℚ) ^ ((log2 n : Int) - (log2 d : Int) - 1) < (n : ℚ) / d := by
    rw [lt_div_iff₀ hdq]
    have e : (2 : ℚ) ^ ((log2 n : Int) - (log2 d : Int) - 1) * 2 ^ ((log2 d : Int) + 1)
        = 2 ^ (log2 n : Int) := by
      rw [← zpow_add₀ h2]; congr 1; ring
    calc (2 : ℚ) ^ ((log2 n : Int) - (log2 d : Int) - 1) * d
        < 2 ^ ((log2 n : Int) - (log2 d : Int) - 1) * 2 ^ ((log2 d : Int) + 1) :=
          mul_lt_mul_of_pos_left hd2 (zpow_pos (by norm_num) _)
      _ = 2 ^ (log2 n : Int) := e
      _ ≤ n := hn1
  have hupp : (n : ℚ) / d < 2 ^ ((log2 n : Int) - (log2 d : Int) + 1) := by
    rw [div_lt_iff₀ hdq]
    have e : (2 : ℚ) ^ ((log2 n : Int) - (log2 d : Int) + 1) * 2 ^ (log2 d : Int)
        = 2 ^ ((log2 n : Int) + 1) := by
      rw [← zpow_add₀ h2]; congr 1; ring
    calc (n : ℚ) < 2 ^ ((log2 n : Int) + 1) := hn2
      _ = 2 ^ ((log2 n : Int) - (log2 d : Int) + 1) * 2 ^ (log2 d : Int) := e.symm
      _ ≤ 2 ^ ((log2 n : Int) - (log2 d : Int) + 1) * d :=
          mul_le_mul_of_nonneg_left hd1 (zpow_pos (by norm_num) _).le
  -- the test of `floorLog2` compares the quotient with 2^k
  have htest : shl n (-((log2 n : Int) - (log2 d : Int))) < shl d ((log2 n : Int) - (log2 d : Int))
      ↔ (n : ℚ) / d < 2 ^ ((log2 n : Int) - (log2 d : Int)) := by
    have hr := shl_ratio n d (-((log2 n : Int) - (log2 d : Int))) hd
    rw [neg_neg] at hr
    have hden : (0 : ℚ) < (shl d ((log2 n : Int) - (log2 d : Int)) : Nat) := by
      rw [shl_cast]; positivity
    have hz : (0 : ℚ) < 2 ^ ((log2 n : Int) - (log2 d : Int)) := zpow_pos (by norm_num) _
    have hcast : shl n (-((log2 n : Int) - (log2 d : Int)))
          < shl d ((log2 n : Int) - (log2 d : Int))
        ↔ ((shl n (-((log2 n : Int) - (log2 d : Int))) : Nat) : ℚ)
          < ((shl d ((log2 n : Int) - (log2 d : Int)) : Nat) : ℚ) := Nat.cast_lt.symm
    rw [hcast, ← div_lt_one hden, hr, zpow_neg, ← div_eq_mul_inv, div_lt_one hz]
  simp only [floorLog2]
  split_ifs with ht
  · have hlt := htest.mp ht
    refine ⟨hlow.le, ?_⟩
    rw [sub_add_cancel]
    exact hlt
  · have hge := not_lt.mp (fun hlt => ht (htest.mpr hlt))
    exact ⟨hge, hupp⟩

/-- An exact quotient is not rounded. -/
theorem nearestEven_mul (m D : Nat) (hD : 0 < D) : nearestEven (m * D) D = m := by
  simp [nearestEven, Nat.mul_div_cancel _ hD, hD]


/-- The logarithm of a number with its leading bit at `k`. -/
theorem log2_eq_of_bounds (m k : Nat) (h1 : 2 ^ k ≤ m) (h2 : m < 2 ^ (k + 1)) : log2 m = k := by
  have hm : 0 < m := lt_of_lt_of_le (by positivity) h1
  obtain ⟨s1, s2⟩ := log2_spec m hm
  have a : log2 m < k + 1 := (Nat.pow_lt_pow_iff_right (by norm_num : 1 < 2)).mp
    (lt_of_le_of_lt s1 h2)
  have b : k < log2 m + 1 := (Nat.pow_lt_pow_iff_right (by norm_num : 1 < 2)).mp
    (lt_of_le_of_lt h1 s2)
  omega

/-- The logarithm of a number below `2^k`. -/
theorem log2_lt_of_lt (m k : Nat) (hm : 0 < m) (h2 : m < 2 ^ k) : log2 m < k := by
  obtain ⟨s1, _⟩ := log2_spec m hm
  exact (Nat.pow_lt_pow_iff_right (by norm_num : 1 < 2)).mp (lt_of_le_of_lt s1 h2)

/-- Rounding is exact on the values of binary64: a rational `n / d` equal to
`m * 2^e` for a nonzero canonical pair `(m, e)` rounds to `fin s m e`. -/
theorem Float64.round_exact (s : Bool) (n d m : Nat) (e : Int) (hd : 0 < d)
    (hc : (0 < m ∧ m < 2 ^ 52 ∧ e = -1074) ∨
      (2 ^ 52 ≤ m ∧ m < 2 ^ 53 ∧ -1074 ≤ e ∧ e ≤ 971))
    (hval : (n : ℚ) / d = m * 2 ^ e) : Float64.round s n d = .fin s m e := by
  have hm : 0 < m := by
    rcases hc with h | h
    · exact h.1
    · exact lt_of_lt_of_le (by positivity) h.1
  have hm53 : m < 2 ^ 53 := by
    rcases hc with h | h
    · exact lt_trans h.2.1 (by norm_num)
    · exact h.2.1
  have he : e ≤ 971 := by
    rcases hc with h | h
    · omega
    · exact h.2.2.2
  have hdq : (0 : ℚ) < d := by exact_mod_cast hd
  have hmq : (0 : ℚ) < m := by exact_mod_cast hm
  have hzp : (0 : ℚ) < 2 ^ e := zpow_pos (by norm_num) _
  have hn : 0 < n := by
    rcases Nat.eq_zero_or_pos n with h0 | h0
    · rw [h0] at hval
      simp at hval
      rcases hval with h | h
      · omega
      · exact absurd h hzp.ne.symm
    · exact h0
  -- the exponent of the leading bit of the quotient
  have hfl : floorLog2 n d = (log2 m : Int) + e := by
    obtain ⟨f1, f2⟩ := floorLog2_spec n d hn hd
    obtain ⟨l1, l2⟩ := log2_cast m hm
    apply zpow_two_unique ((n : ℚ) / d) _ _ f1 f2
    · rw [hval, zpow_add₀ (by norm_num : (2 : ℚ) ≠ 0)]
      exact mul_le_mul_of_nonneg_right l1 hzp.le
    · rw [hval, show (log2 m : Int) + e + 1 = ((log2 m : Int) + 1) + e by ring,
        zpow_add₀ (by norm_num : (2 : ℚ) ≠ 0)]
      exact mul_lt_mul_of_pos_right l2 hzp
  have hq : max (floorLog2 n d - 52) (-1074) = e := by
    rw [hfl]
    rcases hc with h | h
    · have := log2_lt_of_lt m 52 h.1 h.2.1
      omega
    · have := log2_eq_of_bounds m 52 h.1 h.2.1
      omega
  -- the scaled quotient is the integer `m`
  have hD : 0 < shl d e := by
    simp only [shl]; positivity
  have hnum : shl n (-e) = m * shl d e := by
    have hr := shl_ratio n d (-e) hd
    rw [neg_neg, hval, mul_assoc, ← zpow_add₀ (by norm_num : (2 : ℚ) ≠ 0)] at hr
    simp only [add_neg_cancel, zpow_zero, mul_one] at hr
    have hDq : ((shl d e : Nat) : ℚ) ≠ 0 := by exact_mod_cast hD.ne.symm
    have : ((shl n (-e) : Nat) : ℚ) = ((m * shl d e : Nat) : ℚ) := by
      push_cast
      rw [← hr]
      field_simp
    exact_mod_cast this
  have hne : nearestEven (shl n (-e)) (shl d e) = m := by
    rw [hnum]; exact nearestEven_mul m _ hD
  simp only [Float64.round, hn.ne.symm, if_false, hq, hne]
  rw [if_neg hm.ne.symm, if_neg hm53.ne, if_neg (not_lt.mpr he)]


/-- Scaling by `2^0`. -/
theorem shl_zero_right (x : Nat) : shl x 0 = x := by simp [shl]

/-- Scaling keeps a number positive. -/
theorem shl_pos (x : Nat) (k : Int) (hx : 0 < x) : 0 < shl x k := by
  simp only [shl]; positivity

/-- Doubling a canonical nonzero value is exact. -/
theorem Float64.add_self_fin (s : Bool) (m : Nat) (e : Int)
    (hc : (0 < m ∧ m < 2 ^ 52 ∧ e = -1074) ∨
      (2 ^ 52 ≤ m ∧ m < 2 ^ 53 ∧ -1074 ≤ e ∧ e ≤ 970)) :
    Float64.add (.fin s m e) (.fin s m e)
      = if m < 2 ^ 52 then .fin s (2 * m) e else .fin s m (e + 1) := by
  simp only [Float64.add, min_self, sub_self, shl_zero_right, if_true]
  have hr := shl_ratio (m + m) 1 e (by norm_num)
  split_ifs with hm
  · rcases hc with h | h
    · apply Float64.round_exact s _ _ _ _ (shl_pos 1 _ (by norm_num))
      · rcases Nat.lt_or_ge (2 * m) (2 ^ 52) with h2 | h2
        · exact Or.inl ⟨by omega, h2, h.2.2⟩
        · exact Or.inr ⟨h2, by omega, by omega, by omega⟩
      · rw [hr]; push_cast; ring
    · omega
  · rcases hc with h | h
    · omega
    · apply Float64.round_exact s _ _ _ _ (shl_pos 1 _ (by norm_num))
      · exact Or.inr ⟨h.1, h.2.1, by omega, by omega⟩
      · rw [hr, zpow_add_one₀ (by norm_num : (2 : ℚ) ≠ 0)]; push_cast; ring

/-- Halving the double of a canonical nonzero value is exact. -/
theorem Float64.div_two_fin (s : Bool) (m : Nat) (e : Int)
    (hc : (0 < m ∧ m < 2 ^ 52 ∧ e = -1074) ∨
      (2 ^ 52 ≤ m ∧ m < 2 ^ 53 ∧ -1074 ≤ e ∧ e ≤ 971)) :
    Float64.div (if m < 2 ^ 52 then .fin s (2 * m) e else .fin s m (e + 1))
      (.fin false (2 ^ 52) (-51)) = .fin s m e := by
  have h52 : (2 : Nat) ^ 52 ≠ 0 := by positivity
  have hz : (2 : ℚ) ≠ 0 := by norm_num
  split_ifs with hm
  · simp only [Float64.div, if_neg h52, Bool.xor_false]
    apply Float64.round_exact s _ _ _ _ (shl_pos _ _ (by positivity)) hc
    have hr := shl_ratio (2 * m) (2 ^ 52) (e + 51) (by positivity)
    rw [show e - -51 = e + 51 by ring, show -51 - e = -(e + 51) by ring, hr,
      zpow_add₀ hz]
    push_cast
    rw [show (51 : Int) = ((51 : Nat) : Int) by norm_num, zpow_natCast]
    field_simp
    ring
  · simp only [Float64.div, if_neg h52, Bool.xor_false]
    apply Float64.round_exact s _ _ _ _ (shl_pos _ _ (by positivity)) hc
    have hr := shl_ratio m (2 ^ 52) (e + 1 + 51) (by positivity)
    rw [show e + 1 - -51 = e + 1 + 51 by ring, show -51 - (e + 1) = -(e + 1 + 51) by ring, hr,
      show e + 1 + 51 = e + 52 by ring, zpow_add₀ hz]
    push_cast
    rw [show (52 : Int) = ((52 : Nat) : Int) by norm_num, zpow_natCast]
    field_simp
    norm_num
    ring


set_option maxRecDepth 100000 in
/-- The constants 0, 1 and 2 as data. -/
theorem Float64.small_constants :
    (0 : Float64) = .fin false 0 0 ∧ (1 : Float64) = .fin false (2 ^ 52) (-52) ∧
    (2 : Float64) = .fin false (2 ^ 52) (-51) := by
  decide

/-- A finite value that is at least zero and is not zero has a clear sign bit. -/
theorem Float64.sign_of_nonneg (s : Bool) (m : Nat) (e : Int) (hm : 0 < m)
    (h0 : (0 : Float64) ≤ .fin s m e) : s = false := by
  rw [Float64.small_constants.1] at h0
  have h : Float64.le (.fin false 0 0) (.fin s m e) = true := h0
  cases s with
  | false => rfl
  | true =>
    simp only [Float64.le, signed, shl, decide_eq_true_eq, if_true, Bool.false_eq_true,
      if_false, zero_mul, Nat.cast_zero] at h
    have hp : 0 < m * 2 ^ (e - min 0 e).toNat := by positivity
    have hp2 : (0 : Int) < ((m * 2 ^ (e - min 0 e).toNat : Nat) : Int) := by exact_mod_cast hp
    omega

/-- A normal value that is at most one has a negative exponent. -/
theorem Float64.exp_of_le_one (m : Nat) (e : Int) (hm : 2 ^ 52 ≤ m)
    (h1 : Float64.fin false m e ≤ 1) : e ≤ -52 := by
  rw [Float64.small_constants.2.1] at h1
  have h : Float64.le (.fin false m e) (.fin false (2 ^ 52) (-52)) = true := h1
  by_contra hgt
  have hmin : min e (-52) = -52 := min_eq_right (by omega)
  simp only [Float64.le, signed, shl, hmin, decide_eq_true_eq, sub_self, Int.toNat_zero,
    pow_zero, mul_one, if_false, Bool.false_eq_true] at h
  have hk : 1 ≤ (e - -52).toNat := by omega
  have h2 : 2 ^ 1 ≤ 2 ^ (e - -52).toNat := Nat.pow_le_pow_right (by norm_num) hk
  have h3 : 2 ^ 52 * 2 ^ 1 ≤ m * 2 ^ (e - -52).toNat := Nat.mul_le_mul hm h2
  have h4 : m * 2 ^ (e - -52).toNat ≤ 2 ^ 52 := by exact_mod_cast h
  omega

/-- For every binary64 `v` in `[0, 1]`, `(v + v) / 2` is `v`. -/
theorem Float64.add_self_div_two (v : Float64) (hc : v.canonical = true)
    (h0 : 0 ≤ v) (h1 : v ≤ 1) : (v + v) / 2 = v := by
  cases v with
  | nan =>
    rw [Float64.small_constants.1] at h0
    exact absurd h0 (by decide)
  | inf s =>
    rw [Float64.small_constants.1] at h0
    rw [Float64.small_constants.2.1] at h1
    cases s with
    | false => exact absurd h1 (by decide)
    | true => exact absurd h0 (by decide)
  | fin s m e =>
    rw [Float64.small_constants.2.2]
    show Float64.div (Float64.add (.fin s m e) (.fin s m e)) (.fin false (2 ^ 52) (-51))
      = .fin s m e
    rcases Nat.eq_zero_or_pos m with hm | hm
    · subst hm
      have he : e = 0 := by
        simp [Float64.canonical] at hc
        exact hc
      subst he
      cases s <;> decide
    · have hs := Float64.sign_of_nonneg s m e hm h0
      subst hs
      have hcan : (0 < m ∧ m < 2 ^ 52 ∧ e = -1074) ∨
          (2 ^ 52 ≤ m ∧ m < 2 ^ 53 ∧ -1074 ≤ e ∧ e ≤ 971) := by
        simp only [Float64.canonical, Bool.or_eq_true, Bool.and_eq_true, beq_iff_eq,
          decide_eq_true_eq] at hc
        rcases hc with (h | h) | h
        · omega
        · exact Or.inl ⟨h.1.1, h.1.2, h.2⟩
        · exact Or.inr ⟨h.1.1.1, h.1.1.2, h.1.2, h.2⟩
      have hcan2 : (0 < m ∧ m < 2 ^ 52 ∧ e = -1074) ∨
          (2 ^ 52 ≤ m ∧ m < 2 ^ 53 ∧ -1074 ≤ e ∧ e ≤ 970) := by
        rcases hcan with h | h
        · exact Or.inl h
        · have := Float64.exp_of_le_one m e h.1 h1
          exact Or.inr ⟨h.1, h.2.1, h.2.2.1, by omega⟩
      rw [Float64.add_self_fin false m e hcan2]
      exact Float64.div_two_fin false m e hcan

/-! ## The results of float64 arithmetic are binary64 data -/

/-- A quotient below `B` is rounded to at most `B`. -/
theorem nearestEven_le (num D B : Nat) (hD : 0 < D) (h : num < B * D) :
    nearestEven num D ≤ B := by
  obtain ⟨h1, _, _⟩ := nearestEven_spec num D hD
  by_contra hlt
  have h2 : (B + 1) * D ≤ nearestEven num D * D := Nat.mul_le_mul_right D (by omega)
  have h3 : (B + 1) * D = B * D + D := by ring
  omega

/-- A quotient of at least `B` is rounded to at least `B`. -/
theorem le_nearestEven (num D B : Nat) (hD : 0 < D) (h : B * D ≤ num) :
    B ≤ nearestEven num D := by
  obtain ⟨_, h1, _⟩ := nearestEven_spec num D hD
  by_contra hlt
  have h2 : (nearestEven num D + 1) * D ≤ B * D := Nat.mul_le_mul_right D (by omega)
  have h3 : (nearestEven num D + 1) * D = nearestEven num D * D + D := by ring
  omega

/-- Rounding returns a datum of binary64. -/
theorem Float64.round_canonical (s : Bool) (n d : Nat) (hd : 0 < d) :
    (Float64.round s n d).canonical = true := by
  rcases Nat.eq_zero_or_pos n with hn | hn
  · simp [Float64.round, hn, Float64.canonical]
  have hz : (2 : ℚ) ≠ 0 := by norm_num
  obtain ⟨f1, f2⟩ := floorLog2_spec n d hn hd
  have hD : 0 < shl d (max (floorLog2 n d - 52) (-1074)) := shl_pos d _ hd
  have hDq : (0 : ℚ) < (shl d (max (floorLog2 n d - 52) (-1074)) : Nat) := by exact_mod_cast hD
  have hr := shl_ratio n d (-(max (floorLog2 n d - 52) (-1074))) hd
  rw [neg_neg] at hr
  -- the scaled quotient is below 2^53, and at least 2^52 for a normal result
  have hupper : shl n (-(max (floorLog2 n d - 52) (-1074)))
      < 2 ^ 53 * shl d (max (floorLog2 n d - 52) (-1074)) := by
    have : ((shl n (-(max (floorLog2 n d - 52) (-1074))) : Nat) : ℚ)
        < ((2 ^ 53 * shl d (max (floorLog2 n d - 52) (-1074)) : Nat) : ℚ) := by
      push_cast
      rw [← div_lt_iff₀ hDq, hr]
      calc (n : ℚ) / d * 2 ^ (-(max (floorLog2 n d - 52) (-1074)))
          < 2 ^ (floorLog2 n d + 1) * 2 ^ (-(max (floorLog2 n d - 52) (-1074))) :=
            mul_lt_mul_of_pos_right f2 (zpow_pos (by norm_num) _)
        _ = 2 ^ (floorLog2 n d + 1 + -(max (floorLog2 n d - 52) (-1074))) :=
            (zpow_add₀ hz _ _).symm
        _ ≤ 2 ^ ((53 : Nat) : Int) := zpow_le_zpow_right₀ (by norm_num) (by
            have := le_max_left (floorLog2 n d - 52) (-1074); push_cast; omega)
        _ = 2 ^ 53 := zpow_natCast _ _
    exact_mod_cast this
  have hm53 := nearestEven_le _ _ (2 ^ 53) hD hupper
  simp only [Float64.round, hn.ne.symm, if_false]
  split_ifs with h0 h53 hq1 hq
  · simp [Float64.canonical]
  · simp [Float64.canonical]
  · have hq2 : -1074 ≤ max (floorLog2 n d - 52) (-1074) := le_max_right _ _
    simp only [Float64.canonical, Bool.or_eq_true, Bool.and_eq_true, beq_iff_eq,
      decide_eq_true_eq]
    right
    refine ⟨⟨⟨le_refl _, by norm_num⟩, by omega⟩, by omega⟩
  · simp [Float64.canonical]
  · have hq2 : -1074 ≤ max (floorLog2 n d - 52) (-1074) := le_max_right _ _
    have hmpos : 0 < nearestEven (shl n (-(max (floorLog2 n d - 52) (-1074))))
        (shl d (max (floorLog2 n d - 52) (-1074))) := Nat.pos_of_ne_zero h0
    simp only [Float64.canonical, Bool.or_eq_true, Bool.and_eq_true, beq_iff_eq,
      decide_eq_true_eq]
    rcases le_or_lt (-1074) (floorLog2 n d - 52) with hnorm | hsub
    · -- a normal result: the scaled quotient is at least 2^52
      have hqe : max (floorLog2 n d - 52) (-1074) = floorLog2 n d - 52 := max_eq_left hnorm
      have hlower : 2 ^ 52 * shl d (max (floorLog2 n d - 52) (-1074))
          ≤ shl n (-(max (floorLog2 n d - 52) (-1074))) := by
        have : ((2 ^ 52 * shl d (max (floorLog2 n d - 52) (-1074)) : Nat) : ℚ)
            ≤ ((shl n (-(max (floorLog2 n d - 52) (-1074))) : Nat) : ℚ) := by
          push_cast
          rw [← le_div_iff₀ hDq, hr]
          calc (2 : ℚ) ^ 52 = 2 ^ ((52 : Nat) : Int) := (zpow_natCast _ _).symm
            _ = 2 ^ (floorLog2 n d + -(max (floorLog2 n d - 52) (-1074))) := by
                congr 1; rw [hqe]; push_cast; ring
            _ = 2 ^ floorLog2 n d * 2 ^ (-(max (floorLog2 n d - 52) (-1074))) :=
                zpow_add₀ hz _ _
            _ ≤ (n : ℚ) / d * 2 ^ (-(max (floorLog2 n d - 52) (-1074))) :=
                mul_le_mul_of_nonneg_right f1 (zpow_pos (by norm_num) _).le
        exact_mod_cast this
      have hm52 := le_nearestEven _ _ (2 ^ 52) hD hlower
      right
      refine ⟨⟨⟨hm52, by omega⟩, hq2⟩, by omega⟩
    · -- a subnormal result (or the least normal one) at the exponent -1074
      have hqe : max (floorLog2 n d - 52) (-1074) = -1074 := max_eq_right hsub.le
      rcases Nat.lt_or_ge (nearestEven (shl n (-(max (floorLog2 n d - 52) (-1074))))
        (shl d (max (floorLog2 n d - 52) (-1074)))) (2 ^ 52) with hlt | hge
      · left; right
        exact ⟨⟨hmpos, hlt⟩, hqe⟩
      · right
        refine ⟨⟨⟨hge, by omega⟩, hq2⟩, by omega⟩


/-- Every result of `+`, `-`, `*` and `/`, and every constant, is a datum of
binary64, whatever the operands. -/
theorem Float64.arith_canonical (x y : Float64) :
    (x + y).canonical = true ∧ (x - y).canonical = true ∧ (x * y).canonical = true ∧
    (x / y).canonical = true ∧
    (∀ n : Nat, (OfNat.ofNat n : Float64).canonical = true) ∧
    (∀ (m : Nat) (s : Bool) (e : Nat), (OfScientific.ofScientific m s e : Float64).canonical
      = true) := by
  have hadd : ∀ a b : Float64, (Float64.add a b).canonical = true := by
    intro a b
    cases a <;> cases b <;> simp only [Float64.add] <;> try rfl
    · split_ifs <;> rfl
    · split_ifs
      · exact Float64.round_canonical _ _ _ (shl_pos 1 _ (by norm_num))
      · rfl
      · exact Float64.round_canonical _ _ _ (shl_pos 1 _ (by norm_num))
      · exact Float64.round_canonical _ _ _ (shl_pos 1 _ (by norm_num))
  refine ⟨hadd x y, hadd x _, ?_, ?_, ?_, ?_⟩
  · show (Float64.mul x y).canonical = true
    cases x <;> cases y <;> simp only [Float64.mul] <;> try rfl
    · split_ifs <;> rfl
    · split_ifs <;> rfl
    · exact Float64.round_canonical _ _ _ (shl_pos 1 _ (by norm_num))
  · show (Float64.div x y).canonical = true
    cases x <;> cases y <;> simp only [Float64.div] <;> try rfl
    split_ifs with h1 h2
    · rfl
    · rfl
    · exact Float64.round_canonical _ _ _ (shl_pos _ _ (Nat.pos_of_ne_zero h1))
  · intro n
    exact Float64.round_canonical _ _ _ (by norm_num)
  · intro m s e
    show (if s then Float64.round false m (10 ^ e) else Float64.round false (m * 10 ^ e) 1).canonical
      = true
    split_ifs
    · exact Float64.round_canonical _ _ _ (by positivity)
    · exact Float64.round_canonical _ _ _ (by norm_num)

/-! ## The order of float64 values -/

/-- The aligned integer used by the comparisons, as a rational. -/
theorem signed_shl_cast (s : Bool) (m : Nat) (e f : Int) (hf : f ≤ e) :
    ((signed s (shl m (e - f)) : Int) : ℚ) = finValue s m e * 2 ^ (-f) := by
  have hz : (2 : ℚ) ≠ 0 := by norm_num
  have hp : ((shl m (e - f) : Nat) : ℚ) = m * 2 ^ e * 2 ^ (-f) := by
    rw [shl_cast, ← zpow_natCast, Int.toNat_of_nonneg (by omega : 0 ≤ e - f), mul_assoc,
      ← zpow_add₀ hz]
    congr 2
  cases s with
  | false => simp [signed, finValue, hp]
  | true => simp [signed, finValue, hp]

/-- On finite data `<` is the order of the values. -/
theorem Float64.fin_lt_iff (s1 : Bool) (m1 : Nat) (e1 : Int) (s2 : Bool) (m2 : Nat) (e2 : Int) :
    Float64.lt (.fin s1 m1 e1) (.fin s2 m2 e2) = true ↔ finValue s1 m1 e1 < finValue s2 m2 e2 := by
  have hp : (0 : ℚ) < 2 ^ (-(min e1 e2)) := zpow_pos (by norm_num) _
  simp only [Float64.lt, decide_eq_true_eq]
  have hcast : signed s1 (shl m1 (e1 - min e1 e2)) < signed s2 (shl m2 (e2 - min e1 e2))
      ↔ ((signed s1 (shl m1 (e1 - min e1 e2)) : Int) : ℚ)
        < ((signed s2 (shl m2 (e2 - min e1 e2)) : Int) : ℚ) := Int.cast_lt.symm
  rw [hcast, signed_shl_cast s1 m1 e1 _ (min_le_left _ _),
    signed_shl_cast s2 m2 e2 _ (min_le_right _ _), mul_lt_mul_right hp]

/-- On finite data `<=` is the order of the values. -/
theorem Float64.fin_le_iff (s1 : Bool) (m1 : Nat) (e1 : Int) (s2 : Bool) (m2 : Nat) (e2 : Int) :
    Float64.le (.fin s1 m1 e1) (.fin s2 m2 e2) = true ↔ finValue s1 m1 e1 ≤ finValue s2 m2 e2 := by
  have hp : (0 : ℚ) < 2 ^ (-(min e1 e2)) := zpow_pos (by norm_num) _
  simp only [Float64.le, decide_eq_true_eq]
  have hcast : signed s1 (shl m1 (e1 - min e1 e2)) ≤ signed s2 (shl m2 (e2 - min e1 e2))
      ↔ ((signed s1 (shl m1 (e1 - min e1 e2)) : Int) : ℚ)
        ≤ ((signed s2 (shl m2 (e2 - min e1 e2)) : Int) : ℚ) := Int.cast_le.symm
  rw [hcast, signed_shl_cast s1 m1 e1 _ (min_le_left _ _),
    signed_shl_cast s2 m2 e2 _ (min_le_right _ _), mul_le_mul_right hp]

/-- From `a <= b` and `b < c` follows `a < c` (also with infinities). -/
theorem Float64.lt_of_le_of_lt {a b c : Float64} (hab : a ≤ b) (hbc : b < c) : a < c := by
  have h1 : Float64.le a b = true := hab
  have h2 : Float64.lt b c = true := hbc
  show Float64.lt a c = true
  cases a <;> cases b <;> cases c
  all_goals first
    | (rw [Float64.fin_le_iff] at h1
       rw [Float64.fin_lt_iff] at h2 ⊢
       exact h1.trans_lt h2)
    | simp_all [Float64.le, Float64.lt]

/-- The comparison `<` is transitive. -/
theorem Float64.lt_trans {a b c : Float64} (hab : a < b) (hbc : b < c) : a < c :=
  Float64.lt_of_le_of_lt (Float64.le_of_lt hab) hbc

/-- Where the ranges are lined up (`Base.Min() <= Base.Max() <= OverFlow.Max()`)
and each sub-map answers with an error below its `Min` and above its `Max`,
`At(v)` is an error for every `v < Min()` and every `v > Max()`. -/
theorem BrokenColorMap.At_outside_error_of_aligned (c : BrokenColorMap) (M : ColorMap σ)
    (v : Float64) (h : Heap σ)
    (houtside : ∀ s x, (x < M.Min s ∨ x > M.Max s) → ∃ e, M.At s x = .error e)
    (hbase : M.Min (h c.Base) ≤ M.Max (h c.Base))
    (hcut : M.Max (h c.Base) ≤ M.Max (h c.OverFlow))
    (hv : v < c.Min M h ∨ v > c.Max M h) : ∃ e, c.At M v h = .error e := by
  rcases hv with hlow | hhigh
  · have hlow2 : v < M.Min (h c.Base) := hlow
    by_cases hgt : v > M.Max (h c.Base)
    · exact absurd (Float64.lt_trans hgt hlow2) (Float64.not_gt_of_le hbase)
    · simp only [BrokenColorMap.At, if_neg hgt]
      exact houtside _ _ (Or.inl hlow2)
  · have hhigh2 : v > M.Max (h c.OverFlow) := hhigh
    have hgt : v > M.Max (h c.Base) := Float64.lt_of_le_of_lt hcut hhigh2
    simp only [BrokenColorMap.At, if_pos hgt]
    exact houtside _ _ (Or.inr hhigh2)

/-! ## BrokenColorMap.SetAlpha -/

/-- C15. `SetAlpha(v)` sets the same opacity on both sub-maps: for every
float64 `v` in `[0, 1]` and every prior state, with sub-maps whose `SetAlpha`
accepts such a `v` and stores it, the call succeeds, `Base.Alpha()` and
`OverFlow.Alpha()` are both `v` afterwards, and the composite's `Alpha()`,
which is then `(v + v) / 2`, returns `v`. -/
theorem BrokenColorMap.SetAlpha_sets_both (c : BrokenColorMap) (M : ColorMap σ)
    (v : Float64) (h : Heap σ)
    (hstore : ∀ s x, 0 ≤ x → x ≤ 1 →
      (M.SetAlpha s x).failure = none ∧ M.Alpha (M.SetAlpha s x).state = x)
    (hv : v.canonical = true) (h0 : 0 ≤ v) (h1 : v ≤ 1) :
    (c.SetAlpha M v h).failure = none ∧
    M.Alpha ((c.SetAlpha M v h).state c.Base) = v ∧
    M.Alpha ((c.SetAlpha M v h).state c.OverFlow) = v ∧
    c.Alpha M (c.SetAlpha M v h).state = v := by
  have hr1 := hstore (h c.Base) v h0 h1
  have hbase : M.Alpha ((c.SetAlpha M v h).state c.Base) = v := by
    simp only [BrokenColorMap.SetAlpha, hr1.1]
    by_cases hsame : c.Base = c.OverFlow
    · rw [hsame, Function.update_same]
      exact (hstore _ v h0 h1).2
    · rw [Function.update_noteq hsame, Function.update_same]
      exact hr1.2
  have hover : M.Alpha ((c.SetAlpha M v h).state c.OverFlow) = v := by
    simp only [BrokenColorMap.SetAlpha, hr1.1]
    rw [Function.update_same]
    exact (hstore _ v h0 h1).2
  refine ⟨?_, hbase, hover, ?_⟩
  · simp only [BrokenColorMap.SetAlpha, hr1.1]
    exact (hstore _ v h0 h1).1
  · simp only [BrokenColorMap.Alpha, hbase, hover]
    exact Float64.add_self_div_two v hv h0 h1

set_option maxRecDepth 100000 in
/-- C15 on the sample objects: after `SetAlpha(0.3)` both opacities and the
composite's `Alpha()` are 0.3. -/
theorem BrokenColorMap.SetAlpha_sets_both_witness :
    ((BrokenColorMap.mk 0 1).SetAlpha rangeMap 0.3 sampleHeap).failure = none ∧
    rangeMap.Alpha (((BrokenColorMap.mk 0 1).SetAlpha rangeMap 0.3 sampleHeap).state 0) = 0.3 ∧
    rangeMap.Alpha (((BrokenColorMap.mk 0 1).SetAlpha rangeMap 0.3 sampleHeap).state 1) = 0.3 ∧
    (BrokenColorMap.mk 0 1).Alpha rangeMap
      ((BrokenColorMap.mk 0 1).SetAlpha rangeMap 0.3 sampleHeap).state = 0.3 :=
  BrokenColorMap.SetAlpha_sets_both ⟨0, 1⟩ rangeMap 0.3 sampleHeap
    (fun s x hx0 hx1 => by
      have h2 : ¬ (x < 0 ∨ x > 1) := by
        rintro (hlt | hgt)
        · exact Float64.not_gt_of_le hx0 hlt
        · exact Float64.not_gt_of_le hx1 hgt
      simp [rangeMap, h2])
    (by decide) (by decide) (by decide)

end Plotextra
